import Mathlib

/-!
Verification of the HanScribe handwriting-recognition core.

The development shallowly embeds the TypeScript reference engine
(`src/inference.ts`), the AssemblyScript WASM engine
(`assembly/inference.ts`), the weight parser (`parseWeights`), the stroke
preprocessor (`src/preprocessing.ts`) and the Bezier curve fitter
(`src/fit-curves.ts`).

Numbers are modelled by an arbitrary linear ordered field `K`; the
transcendental library functions (`Math.exp`, `Math.tanh`, `Math.sqrt`,
`Math.atan2`) are parameters of the embedding, bundled in `MathFns`.
Quantized kernels are kept as their raw bytes (`ℕ` values, interpreted
through `toInt8` exactly as the source does).  The weight parser is
embedded at the byte level: float32 values are represented by their
little-endian 32-bit patterns, which is what the bit-identical round-trip
property is about.
-/

namespace HanScribe

/-- Reinterpret an unsigned byte as a two's-complement int8, as done by
`let wVal = w[...]; if (wVal > 127) wVal -= 256` in both engines. -/
def toInt8 (b : ℕ) : ℤ :=
  if 127 < b then (b : ℤ) - 256 else (b : ℤ)

/-- The transcendental library functions the engines call.  They are
parameters of the embedding: theorems either hold for every choice or
state the properties of the real functions they need as hypotheses. -/
structure MathFns (K : Type) where
  exp : K → K
  tanh : K → K
  sqrt : K → K
  atan2 : K → K → K

variable {K : Type} [LinearOrderedField K]

/-- Numerically stable sigmoid from `inference.ts` / `assembly/math.ts`. -/
def sigmoid (exp : K → K) (x : K) : K :=
  if 0 ≤ x then 1 / (1 + exp (-x)) else exp x / (1 + exp x)

/-! ## TypeScript reference engine (`src/inference.ts`) -/

/-- Parsed weight set for one LSTM direction.  Kernels are byte matrices
(gate, row, col); scales and biases live in `K`. -/
structure DirWeights (K : Type) where
  inputKernels : ℕ → ℕ → ℕ → ℕ
  inputScales : ℕ → K
  recKernels : ℕ → ℕ → ℕ → ℕ
  recScales : ℕ → K
  biases : ℕ → ℕ → K

/-- One row of `matvecAddQuantized`'s contribution:
`scale * Σ_j int8(w[i,j]) * x[j]`. -/
def matvecQ (w : ℕ → ℕ → ℕ) (scale : K) (x : ℕ → K) (cols i : ℕ) : K :=
  scale * ∑ j ∈ Finset.range cols, (toInt8 (w i j) : K) * x j

/-- Gate pre-activation buffer contents after the three accumulation
phases of `runLSTMDirection`: biases, plus the input-kernel product,
plus the recurrent-kernel product. -/
def gatePre (dir : DirWeights K) (inputSize H : ℕ) (x h : ℕ → K) (g i : ℕ) : K :=
  dir.biases g i + matvecQ (dir.inputKernels g) (dir.inputScales g) x inputSize i
    + matvecQ (dir.recKernels g) (dir.recScales g) h H i

/-- One timestep of the LSTM recurrence: activations by gate index
(0 = input, 1 = cell candidate, 2 = forget, 3 = output) and the
cell/hidden update, exactly as in `runLSTMDirection`'s inner loop. -/
def lstmStep (mf : MathFns K) (dir : DirWeights K) (inputSize H : ℕ) (x : ℕ → K)
    (hc : (ℕ → K) × (ℕ → K)) : (ℕ → K) × (ℕ → K) :=
  let g := gatePre dir inputSize H x hc.1
  let c := fun i => sigmoid mf.exp (g 2 i) * hc.2 i + sigmoid mf.exp (g 0 i) * mf.tanh (g 1 i)
  (fun i => sigmoid mf.exp (g 3 i) * mf.tanh (c i), c)

/-- State of `runLSTMDirection` after a number of loop iterations:
`(h, c)` state plus the output buffer (rows indexed by timestep).
`h`, `c` and the output buffer start as fresh zero-filled arrays. -/
def tsLstmGo (mf : MathFns K) (dir : DirWeights K) (input : ℕ → ℕ → K)
    (T inputSize H : ℕ) (reverse : Bool) : ℕ → ((ℕ → K) × (ℕ → K)) × (ℕ → ℕ → K)
  | 0 => (((fun _ => 0), fun _ => 0), fun _ _ => 0)
  | step + 1 =>
    let prev := tsLstmGo mf dir input T inputSize H reverse step
    let t := if reverse then T - 1 - step else step
    let hc := lstmStep mf dir inputSize H (input t) prev.1
    (hc, Function.update prev.2 t hc.1)

/-- `runLSTMDirection` of `src/inference.ts`: run one direction for all
`T` timesteps and return the output rows. -/
def runLSTMDirection (mf : MathFns K) (dir : DirWeights K) (input : ℕ → ℕ → K)
    (T inputSize H : ℕ) (reverse : Bool) : ℕ → ℕ → K :=
  (tsLstmGo mf dir input T inputSize H reverse T).2

/-- Weights of one bidirectional layer. -/
structure BiLayer (K : Type) where
  forward : DirWeights K
  backward : DirWeights K
  inputSize : ℕ

/-- `runBiLSTMLayer`: forward + backward runs over the same input, rows
concatenated (forward half first). -/
def runBiLSTMLayer (mf : MathFns K) (layer : BiLayer K) (input : ℕ → ℕ → K)
    (T H : ℕ) : ℕ → ℕ → K :=
  let fw := runLSTMDirection mf layer.forward input T layer.inputSize H false
  let bw := runLSTMDirection mf layer.backward input T layer.inputSize H true
  fun t j => if j < H then fw t j else bw t (j - H)

/-! ## The LSTM recurrence as the specification states it -/

/-- The per-direction LSTM state recurrence exactly as §4.4 of the
specification states it: `h`/`c` start at zero; each step forms the four
gate pre-activations as bias + dequantized input-kernel product with the
current timestep's input + dequantized recurrent-kernel product with the
previous hidden state, applies sigmoid/tanh/sigmoid/sigmoid by gate
index, and updates `c' = forget⊙c + input⊙candidate`,
`h' = output⊙tanh c'`.  `specPre` is the stated gate pre-activation. -/
def specPre (dir : DirWeights K) (inputSize H : ℕ) (x h : ℕ → K) (g i : ℕ) : K :=
  dir.biases g i
    + dir.inputScales g * ∑ j ∈ Finset.range inputSize, (toInt8 (dir.inputKernels g i j) : K) * x j
    + dir.recScales g * ∑ j ∈ Finset.range H, (toInt8 (dir.recKernels g i j) : K) * h j

/-- The per-direction LSTM state recurrence of the specification, built
from `specPre` with the fixed sigmoid/tanh/sigmoid/sigmoid gate-index
convention. -/
def specLSTMState (mf : MathFns K) (dir : DirWeights K) (input : ℕ → ℕ → K)
    (T inputSize H : ℕ) (reverse : Bool) : ℕ → (ℕ → K) × (ℕ → K)
  | 0 => ((fun _ => 0), fun _ => 0)
  | step + 1 =>
    let p := specLSTMState mf dir input T inputSize H reverse step
    let t := if reverse then T - 1 - step else step
    let pre := specPre dir inputSize H (input t) p.1
    let ig := fun i => sigmoid mf.exp (pre 0 i)
    let cg := fun i => mf.tanh (pre 1 i)
    let fg := fun i => sigmoid mf.exp (pre 2 i)
    let og := fun i => sigmoid mf.exp (pre 3 i)
    let c := fun i => fg i * p.2 i + ig i * cg i
    (fun i => og i * mf.tanh (c i), c)

/-! ## TypeScript decoder (`runFCAndDecode`) -/

/-- FC classifier weights: byte kernel, one scale, float biases. -/
structure FCWeights (K : Type) where
  weights : ℕ → ℕ → ℕ
  scale : K
  biases : ℕ → K

/-- FC logits of one timestep in `runFCAndDecode`:
`logits[i] = scale * Σ_j int8(W[i,j]) * x[j] + bias[i]`. -/
def fcLogit (fc : FCWeights K) (inputSize : ℕ) (x : ℕ → K) (i : ℕ) : K :=
  fc.scale * ∑ j ∈ Finset.range inputSize, (toInt8 (fc.weights i j) : K) * x j + fc.biases i

/-- The running maximum over the logits, started from `-Infinity`
(modelled by `⊥` of `WithBot K`), as in `runFCAndDecode`. -/
def jsMaxLogit (logits : ℕ → K) (n : ℕ) : WithBot K :=
  (List.range n).foldl
    (fun m i => if m < (logits i : WithBot K) then (logits i : WithBot K) else m) ⊥

/-- Per-timestep softmax probability in `runFCAndDecode`: subtract the
maximum logit, exponentiate, normalize by the sum.  (The `getD 0`
unwrap only matters for `numClasses = 0`, where no probability is ever
read.) -/
def tsProbs (exp : K → K) (fc : FCWeights K) (inputSize numClasses : ℕ)
    (x : ℕ → K) (i : ℕ) : K :=
  let logits := fcLogit fc inputSize x
  let m := (jsMaxLogit logits numClasses).getD 0
  exp (logits i - m) / ∑ k ∈ Finset.range numClasses, exp (logits k - m)

/-- The per-class running-maximum probability after all `T` timesteps
(`maxProb` in `runFCAndDecode`; the blank class `numClasses - 1` is
never updated). -/
def tsMaxProbs (exp : K → K) (fc : FCWeights K) (inputSize numClasses : ℕ)
    (input : ℕ → ℕ → K) (T : ℕ) : ℕ → K :=
  (List.range T).foldl
    (fun mp t =>
      let p := tsProbs exp fc inputSize numClasses (input t)
      fun i => if i < numClasses - 1 ∧ mp i < p i then p i else mp i)
    (fun _ => 0)

/-- Candidate list built by `runFCAndDecode`: every non-blank class
whose running maximum exceeds `0.001`, in class-index order. -/
def tsEligible (mp : ℕ → K) (numClasses : ℕ) : List (ℕ × K) :=
  ((List.range (numClasses - 1)).filter (fun i => decide ((1 : K) / 1000 < mp i))).map
    (fun i => (i, mp i))

/-- JavaScript `Array.prototype.sort` with comparator `(a, b) => b[1] - a[1]`:
a stable sort placing higher scores first. -/
def tsSortDesc (l : List (ℕ × K)) : List (ℕ × K) :=
  List.mergeSort l (fun a b => decide (b.2 ≤ a.2))

/-- Top-K selection of `runFCAndDecode`: sort candidates by score
descending, keep the first `topK`. -/
def tsTopK (mp : ℕ → K) (numClasses topK : ℕ) : List (ℕ × K) :=
  (tsSortDesc (tsEligible mp numClasses)).take topK

/-- `runFCAndDecode` of `src/inference.ts`, returning the ranked
(classIndex, score) list. -/
def tsRunFCAndDecode (exp : K → K) (fc : FCWeights K) (input : ℕ → ℕ → K)
    (T inputSize numClasses topK : ℕ) : List (ℕ × K) :=
  tsTopK (tsMaxProbs exp fc inputSize numClasses input T) numClasses topK

/-- A parsed model as consumed by `runInference`. -/
structure TsModel (K : Type) where
  layers : List (BiLayer K)
  fc : FCWeights K
  H : ℕ
  numClasses : ℕ

/-- `runInference` of `src/inference.ts`: chain the BiLSTM layers over
the feature rows, then decode. -/
def runInference (mf : MathFns K) (m : TsModel K) (features : ℕ → ℕ → K)
    (T topK : ℕ) : List (ℕ × K) :=
  let final := m.layers.foldl (fun cur layer => runBiLSTMLayer mf layer cur T m.H) features
  tsRunFCAndDecode mf.exp m.fc final T (m.H * 2) m.numClasses topK

/-- Concrete math functions over `ℚ` used to instantiate witnesses. -/
def mfQ : MathFns ℚ := ⟨id, id, id, fun _ _ => 0⟩

/-- Concrete direction weights over `ℚ` used to instantiate witnesses. -/
def dirQ : DirWeights ℚ :=
  ⟨fun _ _ _ => 0, fun _ => 1, fun _ _ _ => 0, fun _ => 1, fun _ _ => 0⟩

/-! ## AssemblyScript WASM engine (`assembly/inference.ts`)

The engine works on module-level buffers in linear memory.  `State`
holds each scratch region; buffer writes are modelled functionally,
touching exactly the indices the code writes, so the remaining entries
keep whatever a previous call left there.  Two-dimensional regions
(`[T × n]` float arrays) are modelled row-wise. -/

namespace Wasm

/-- Module-level scratch buffers laid out by `init`. -/
structure State (K : Type) where
  outputA : ℕ → ℕ → K
  outputB : ℕ → ℕ → K
  tempFw : ℕ → ℕ → K
  tempBw : ℕ → ℕ → K
  gates : ℕ → K
  hBuf : ℕ → K
  cBuf : ℕ → K
  logits : ℕ → K
  maxProb : ℕ → K
  resultIdx : ℕ → ℕ
  resultScr : ℕ → K

/-- The model as addressed through the offset table `init` builds:
per-layer forward/backward direction weights and the FC weights. -/
structure Model (K : Type) where
  dirs : ℕ → DirWeights K × DirWeights K
  fc : FCWeights K
  H : ℕ
  numClasses : ℕ
  numFeatures : ℕ

/-- Per-layer input size as `init` records it in the offset table:
`l == 0 ? numFeatures : H * 2`. -/
def layerInputSize (m : Model K) (l : ℕ) : ℕ :=
  if l = 0 then m.numFeatures else m.H * 2

/-- The layer weights addressed through `loadDirBase`/`loadLayerInputSize`. -/
def layerOf (m : Model K) (l : ℕ) : BiLayer K :=
  ⟨(m.dirs l).1, (m.dirs l).2, layerInputSize m l⟩

def MAX_T : ℕ := 128

def MAX_TOP_K : ℕ := 100

/-- Intermediate state of one direction run: the `h`/`c`/gate buffers
plus the output region being written. -/
structure DirSt (K : Type) where
  hb : ℕ → K
  cb : ℕ → K
  gates : ℕ → K
  out : ℕ → ℕ → K

/-- One timestep of the WASM `runLSTMDirection`: rebuild the gate buffer
from the biases and the two dequantized accumulations (`gatePre` is the
value at flat slot `g*H + i`), apply the activations, update `c` and
`h` at indices below `H`, and copy `h` into output row `t`. -/
def dirStep (mf : MathFns K) (dir : DirWeights K) (inputSize H : ℕ) (x : ℕ → K)
    (t : ℕ) (st : DirSt K) : DirSt K :=
  let g := fun idx => if idx < 4 * H then gatePre dir inputSize H x st.hb (idx / H) (idx % H)
    else st.gates idx
  let c := fun i => if i < H then
      sigmoid mf.exp (g (2 * H + i)) * st.cb i + sigmoid mf.exp (g i) * mf.tanh (g (H + i))
    else st.cb i
  let h := fun i => if i < H then sigmoid mf.exp (g (3 * H + i)) * mf.tanh (c i) else st.hb i
  { hb := h, cb := c, gates := g,
    out := Function.update st.out t (fun j => if j < H then h j else st.out t j) }

/-- The timestep loop of the WASM `runLSTMDirection` (first argument:
number of steps done). -/
def dirGo (mf : MathFns K) (dir : DirWeights K) (input : ℕ → ℕ → K)
    (T inputSize H : ℕ) (reverse : Bool) : ℕ → DirSt K → DirSt K
  | 0, st => st
  | n + 1, st =>
    let st' := dirGo mf dir input T inputSize H reverse n st
    let t := if reverse then T - 1 - n else n
    dirStep mf dir inputSize H (input t) t st'

/-- The WASM `runLSTMDirection`: zero the `h`/`c` buffers (entries below
`H`), then run all `T` steps. -/
def runLSTMDirection (mf : MathFns K) (dir : DirWeights K) (input : ℕ → ℕ → K)
    (T inputSize H : ℕ) (reverse : Bool) (st : DirSt K) : DirSt K :=
  dirGo mf dir input T inputSize H reverse T
    { st with hb := fun i => if i < H then 0 else st.hb i,
              cb := fun i => if i < H then 0 else st.cb i }

/-- The WASM `runBiLSTMLayer`: forward into `tempFw`, backward into
`tempBw`, then interleave rows into the target output region. -/
def runBiLSTMLayer (mf : MathFns K) (layer : BiLayer K) (H : ℕ)
    (input : ℕ → ℕ → K) (T : ℕ) (s : State K) (target : ℕ → ℕ → K) :
    State K × (ℕ → ℕ → K) :=
  let f := runLSTMDirection mf layer.forward input T layer.inputSize H false
    ⟨s.hBuf, s.cBuf, s.gates, s.tempFw⟩
  let b := runLSTMDirection mf layer.backward input T layer.inputSize H true
    ⟨f.hb, f.cb, f.gates, s.tempBw⟩
  let out := fun t j =>
    if t < T then
      if j < H then f.out t j
      else if j < 2 * H then b.out t (j - H)
      else target t j
    else target t j
  ({ s with tempFw := f.out, tempBw := b.out, hBuf := b.hb, cBuf := b.cb, gates := b.gates },
    out)

/-- `f32.MIN_VALUE` of AssemblyScript: the most negative finite float32,
`-(2^128 - 2^104)`. -/
def f32MinValue : K := -(340282346638528859811704183484516925440 : K)

/-- WASM logits: bias copy followed by `matvecAddQuantized`. -/
def fcLogitW (fc : FCWeights K) (inputSize : ℕ) (x : ℕ → K) (i : ℕ) : K :=
  fc.biases i + matvecQ fc.weights fc.scale x inputSize i

/-- Maximum-logit scan starting from `f32.MIN_VALUE`. -/
def maxLogitW (logits : ℕ → K) (n : ℕ) : K :=
  (List.range n).foldl (fun m i => if m < logits i then logits i else m) f32MinValue

/-- One timestep of the WASM `runFCAndDecode`: rebuild `logits` (entries
below `numClasses`), softmax in place, fold into `maxProb` (entries
below `numClasses - 1`). -/
def decodeStep (exp : K → K) (fc : FCWeights K) (inputSize numClasses : ℕ)
    (x : ℕ → K) (st : (ℕ → K) × (ℕ → K)) : (ℕ → K) × (ℕ → K) :=
  let lg := fun i => if i < numClasses then fcLogitW fc inputSize x i else st.1 i
  let m := maxLogitW lg numClasses
  let e := fun i => if i < numClasses then exp (lg i - m) else lg i
  let invSum := 1 / ∑ i ∈ Finset.range numClasses, exp (lg i - m)
  let mp := fun i => if i < numClasses - 1 ∧ st.2 i < e i * invSum then e i * invSum else st.2 i
  (e, mp)

/-- The timestep loop of the WASM `runFCAndDecode` over
`(logits, maxProb)`, with `maxProb` zeroed first (entries below
`numClasses`). -/
def decodeGo (exp : K → K) (fc : FCWeights K) (inputSize numClasses : ℕ)
    (input : ℕ → ℕ → K) (T : ℕ) (logits0 maxProb0 : ℕ → K) : (ℕ → K) × (ℕ → K) :=
  (List.range T).foldl (fun st t => decodeStep exp fc inputSize numClasses (input t) st)
    (logits0, fun i => if i < numClasses then 0 else maxProb0 i)

/-- One candidate step of `findTopK`'s selection loop.  The running
state is (buffer, minScore, minSlot); the buffer's length is `count`.
In the replacement branch the buffer always holds exactly `topK`
entries, so the `getD` fallback value of the rescan is never taken. -/
def selStep (maxProb : ℕ → K) (topK : ℕ) (st : List (ℕ × K) × K × ℕ) (i : ℕ) :
    List (ℕ × K) × K × ℕ :=
  let prob := maxProb i
  if prob ≤ 1 / 1000 then st
  else if st.1.length < topK then
    let appended := st.1 ++ [(i, prob)]
    if st.1.length = 0 ∨ prob < st.2.1 then (appended, prob, st.1.length)
    else (appended, st.2.1, st.2.2)
  else if st.2.1 < prob then
    let replaced := st.1.set st.2.2 (i, prob)
    let rescan := (List.range topK).foldl
      (fun ms j =>
        if (replaced.getD j (0, 0)).2 < ms.1 then ((replaced.getD j (0, 0)).2, j) else ms)
      (prob, 0)
    (replaced, rescan)
  else st

/-- The selection phase of `findTopK` over all non-blank classes. -/
def selectTopK (maxProb : ℕ → K) (numClasses topK : ℕ) : List (ℕ × K) :=
  ((List.range (numClasses - 1)).foldl (selStep maxProb topK) ([], 0, 0)).1

/-- Insertion into the sorted prefix, realizing the shift loop of
`findTopK`'s insertion sort: the new entry goes after every entry whose
score is not strictly below its own. -/
def insertDesc (x : ℕ × K) : List (ℕ × K) → List (ℕ × K)
  | [] => [x]
  | y :: ys => if y.2 < x.2 then x :: y :: ys else y :: insertDesc x ys

/-- The insertion sort (descending) at the end of `findTopK`. -/
def sortDesc (l : List (ℕ × K)) : List (ℕ × K) :=
  l.foldl (fun acc x => insertDesc x acc) []

/-- `findTopK`: selection, then in-place insertion sort; the resulting
list is what slots `0 .. count-1` of the result buffers hold. -/
def findTopK (maxProb : ℕ → K) (numClasses topK : ℕ) : List (ℕ × K) :=
  sortDesc (selectTopK maxProb numClasses topK)

/-- The WASM `runFCAndDecode` at the state level: decode from the final
hidden rows, then write the top-K results into the result buffers. -/
def runFCAndDecode (exp : K → K) (fc : FCWeights K) (H numClasses : ℕ)
    (input : ℕ → ℕ → K) (T topK : ℕ) (s : State K) : ℕ × State K :=
  let d := decodeGo exp fc (H * 2) numClasses input T s.logits s.maxProb
  let res := findTopK d.2 numClasses topK
  let idx := fun i => if i < res.length then (res.getD i (0, 0)).1 else s.resultIdx i
  let scr := fun i => if i < res.length then (res.getD i (0, 0)).2 else s.resultScr i
  (res.length, { s with logits := d.1, maxProb := d.2, resultIdx := idx, resultScr := scr })

/-- Body of the WASM `infer` after the two capacity clamps: run the four
BiLSTM layers in an A/B ping-pong, then decode. -/
def inferClamped (mf : MathFns K) (m : Model K) (features : ℕ → ℕ → K) (T topK : ℕ)
    (s : State K) : ℕ × State K :=
  let r0 := runBiLSTMLayer mf (layerOf m 0) m.H features T s s.outputA
  let s0 := { r0.1 with outputA := r0.2 }
  let r1 := runBiLSTMLayer mf (layerOf m 1) m.H s0.outputA T s0 s0.outputB
  let s1 := { r1.1 with outputB := r1.2 }
  let r2 := runBiLSTMLayer mf (layerOf m 2) m.H s1.outputB T s1 s1.outputA
  let s2 := { r2.1 with outputA := r2.2 }
  let r3 := runBiLSTMLayer mf (layerOf m 3) m.H s2.outputA T s2 s2.outputB
  let s3 := { r3.1 with outputB := r3.2 }
  runFCAndDecode mf.exp m.fc m.H m.numClasses s3.outputB T topK s3

/-- The WASM `infer`: clamp `topK` to `MAX_TOP_K` and `T` to `MAX_T`
(both silently), then run the layers and the decode. -/
def infer (mf : MathFns K) (m : Model K) (features : ℕ → ℕ → K) (T0 topK0 : ℕ)
    (s : State K) : ℕ × State K :=
  inferClamped mf m features (if MAX_T < T0 then MAX_T else T0)
    (if MAX_TOP_K < topK0 then MAX_TOP_K else topK0) s

end Wasm

/-- Concrete WASM model over `ℚ` used to instantiate witnesses. -/
def wmQ : Wasm.Model ℚ := ⟨fun _ => (dirQ, dirQ), ⟨fun _ _ => 0, 1, fun _ => 0⟩, 1, 2, 1⟩

/-- Concrete WASM scratch state over `ℚ` used to instantiate witnesses. -/
def wsQ : Wasm.State ℚ :=
  ⟨fun _ _ => 0, fun _ _ => 0, fun _ _ => 0, fun _ _ => 0, fun _ => 0, fun _ => 0,
    fun _ => 0, fun _ => 0, fun _ => 0, fun _ => 0, fun _ => 0⟩

/-! ## Claim C2 -/

/-- A per-class running-maximum profile on which the two decoders
disagree: classes 0..4 have scores 500, 400, 100, 200, 300 (all far
above the 0.001 threshold); class 5 is the blank. -/
def mpBug : ℕ → ℚ := fun i =>
  if i = 0 then 500
  else if i = 1 then 400
  else if i = 2 then 100
  else if i = 3 then 200
  else if i = 4 then 300
  else 0

/-! ## Byte-level weight parser (`parseWeights`, `src/unnamed/part_000`)

The weight buffer is the deobfuscated byte array produced by
`xorDeobfuscate` (a fresh `Uint8Array`, so its backing buffer has exactly
its own length).  `readF32` builds a `DataView(weights.buffer,
weights.byteOffset + offset, 4)`, which throws a `RangeError` exactly when
`offset + 4` exceeds the buffer length, and otherwise reads a little-endian
32-bit word; we keep the word as a natural number (bit pattern), since
nothing downstream of the parser is at stake in these claims.  `readUint8`
uses `Uint8Array.slice`, which never throws and silently clamps to the
available bytes.  The parser is modelled as a state-and-error monad over
the byte list and the running offset. -/

namespace Parse

def PM (α : Type) : Type := List ℕ → ℕ → Except String (α × ℕ)

def PM.pure {α : Type} (a : α) : PM α := fun _ off => .ok (a, off)

def PM.bind {α β : Type} (x : PM α) (f : α → PM β) : PM β := fun buf off =>
  match x buf off with
  | .ok (a, off') => f a buf off'
  | .error e => .error e

def readF32 : PM ℕ := fun buf off =>
  if off + 4 ≤ buf.length then
    .ok (buf.getD off 0 + 256 * buf.getD (off + 1) 0
      + 65536 * buf.getD (off + 2) 0 + 16777216 * buf.getD (off + 3) 0, off + 4)
  else
    .error "RangeError: DataView outside buffer bounds"

def readUint8 (n : ℕ) : PM (List ℕ) := fun buf off =>
  .ok ((buf.drop off).take n, off + n)

def readFloat32Array : ℕ → PM (List ℕ)
  | 0 => PM.pure []
  | n + 1 =>
    PM.bind readF32 fun x =>
    PM.bind (readFloat32Array n) fun xs =>
    PM.pure (x :: xs)

structure LSTMDirectionWeights where
  inputKernels : List (List ℕ)
  inputScales : List ℕ
  recKernels : List (List ℕ)
  recScales : List ℕ
  biases : List (List ℕ)

structure BiLSTMLayerWeights where
  forward : LSTMDirectionWeights
  backward : LSTMDirectionWeights
  inputSize : ℕ

structure FCWeights where
  weights : List ℕ
  scale : ℕ
  biases : List ℕ

structure ModelWeights where
  layers : List BiLSTMLayerWeights
  fc : FCWeights

/-- One `for (g = 0; g < 4; ...)` loop of scale-then-kernel reads,
generalized over the trip count. -/
def parseScaledKernels : ℕ → ℕ → PM (List ℕ × List (List ℕ))
  | 0, _ => PM.pure ([], [])
  | g + 1, klen =>
    PM.bind readF32 fun s =>
    PM.bind (readUint8 klen) fun k =>
    PM.bind (parseScaledKernels g klen) fun sk =>
    PM.pure (s :: sk.1, k :: sk.2)

def parseBiasList : ℕ → ℕ → PM (List (List ℕ))
  | 0, _ => PM.pure []
  | g + 1, H =>
    PM.bind (readFloat32Array H) fun b =>
    PM.bind (parseBiasList g H) fun bs =>
    PM.pure (b :: bs)

def parseDirection (H inputSize : ℕ) : PM LSTMDirectionWeights :=
  PM.bind (parseScaledKernels 4 (H * inputSize)) fun ik =>
  PM.bind (parseScaledKernels 4 (H * H)) fun rk =>
  PM.bind (parseBiasList 4 H) fun bs =>
  PM.pure ⟨ik.2, ik.1, rk.2, rk.1, bs⟩

def parseLayer (H inputSize : ℕ) : PM BiLSTMLayerWeights :=
  PM.bind (parseDirection H inputSize) fun d0 =>
  PM.bind (parseDirection H inputSize) fun d1 =>
  PM.pure ⟨d0, d1, inputSize⟩

def parseLayersGo (H numFeatures : ℕ) : ℕ → ℕ → PM (List BiLSTMLayerWeights)
  | _, 0 => PM.pure []
  | l, n + 1 =>
    PM.bind (parseLayer H (if l = 0 then numFeatures else H * 2)) fun lay =>
    PM.bind (parseLayersGo H numFeatures (l + 1) n) fun rest =>
    PM.pure (lay :: rest)

def parseWeights (numLayers H numClasses numFeatures : ℕ) : PM ModelWeights :=
  PM.bind (parseLayersGo H numFeatures 0 numLayers) fun layers =>
  PM.bind readF32 fun fcScale =>
  PM.bind (readUint8 (numClasses * H * 2)) fun fcW =>
  PM.bind (readFloat32Array numClasses) fun fcB =>
  PM.pure ⟨layers, ⟨fcW, fcScale, fcB⟩⟩

/-! Byte counts of the fixed sequential layout, mirroring the reads. -/

def dirBytes (H inputSize : ℕ) : ℕ :=
  4 * (4 + H * inputSize) + 4 * (4 + H * H) + 4 * (4 * H)

def layerBytes (H inputSize : ℕ) : ℕ := 2 * dirBytes H inputSize

def layersBytesGo (H numFeatures : ℕ) : ℕ → ℕ → ℕ
  | _, 0 => 0
  | l, n + 1 =>
    layerBytes H (if l = 0 then numFeatures else H * 2)
      + layersBytesGo H numFeatures (l + 1) n

def totalBytes (numLayers H numClasses numFeatures : ℕ) : ℕ :=
  layersBytesGo H numFeatures 0 numLayers + 4 + numClasses * H * 2 + 4 * numClasses

/-! Full-size (never-truncated) predicates on parse results. -/

def DirWellSized (H inputSize : ℕ) (d : LSTMDirectionWeights) : Prop :=
  d.inputKernels.length = 4 ∧ d.inputScales.length = 4
  ∧ d.recKernels.length = 4 ∧ d.recScales.length = 4 ∧ d.biases.length = 4
  ∧ (∀ k ∈ d.inputKernels, k.length = H * inputSize)
  ∧ (∀ k ∈ d.recKernels, k.length = H * H)
  ∧ (∀ b ∈ d.biases, b.length = H)

def LayersWellSized (H numFeatures : ℕ) : ℕ → List BiLSTMLayerWeights → Prop
  | _, [] => True
  | l, lay :: rest =>
    lay.inputSize = (if l = 0 then numFeatures else H * 2)
    ∧ DirWellSized H (if l = 0 then numFeatures else H * 2) lay.forward
    ∧ DirWellSized H (if l = 0 then numFeatures else H * 2) lay.backward
    ∧ LayersWellSized H numFeatures (l + 1) rest

def ModelWellSized (numLayers H numClasses numFeatures : ℕ) (m : ModelWeights) : Prop :=
  m.layers.length = numLayers
  ∧ LayersWellSized H numFeatures 0 m.layers
  ∧ m.fc.weights.length = numClasses * H * 2
  ∧ m.fc.biases.length = numClasses

/-! ## Serializer for the §4.3 layout (spec-modelled, for the round-trip)

`enc32` and the `ser*` functions are written from the specification's byte
layout (per layer, per direction: four float32 scales each followed by the
gate's kernel bytes, then the same for the recurrent kernels, then four
runs of `H` float32 biases; finally the FC scale, the FC kernel bytes and
the FC biases, all little-endian).  They are compared against the parser
modelled from the source. -/

def enc32 (w : ℕ) : List ℕ :=
  [w % 256, w / 256 % 256, w / 65536 % 256, w / 16777216 % 256]

def serF32List : List ℕ → List ℕ
  | [] => []
  | w :: ws => enc32 w ++ serF32List ws

def serScaledKernels : List ℕ → List (List ℕ) → List ℕ
  | s :: ss, k :: ks => enc32 s ++ k ++ serScaledKernels ss ks
  | _, _ => []

def serBiases : List (List ℕ) → List ℕ
  | [] => []
  | b :: bs => serF32List b ++ serBiases bs

def serDirection (d : LSTMDirectionWeights) : List ℕ :=
  serScaledKernels d.inputScales d.inputKernels
    ++ serScaledKernels d.recScales d.recKernels
    ++ serBiases d.biases

def serLayer (lay : BiLSTMLayerWeights) : List ℕ :=
  serDirection lay.forward ++ serDirection lay.backward

def serLayers : List BiLSTMLayerWeights → List ℕ
  | [] => []
  | lay :: rest => serLayer lay ++ serLayers rest

def serializeWeights (m : ModelWeights) : List ℕ :=
  serLayers m.layers ++ enc32 m.fc.scale ++ m.fc.weights ++ serF32List m.fc.biases

/-- `RunsTo p bytes a`: started anywhere, on a buffer holding `bytes` at
that position, the parser succeeds with value `a` and consumes exactly
`bytes`. -/
def RunsTo {α : Type} (p : PM α) (bytes : List ℕ) (a : α) : Prop :=
  ∀ pre suf : List ℕ,
    p (pre ++ bytes ++ suf) pre.length = .ok (a, pre.length + bytes.length)

/-- Every 32-bit scalar of the direction fits one little-endian word. -/
def DirValuesBounded (d : LSTMDirectionWeights) : Prop :=
  (∀ s ∈ d.inputScales, s < 4294967296) ∧ (∀ s ∈ d.recScales, s < 4294967296)
  ∧ (∀ b ∈ d.biases, ∀ w ∈ b, w < 4294967296)

def ModelValuesBounded (m : ModelWeights) : Prop :=
  (∀ lay ∈ m.layers, DirValuesBounded lay.forward ∧ DirValuesBounded lay.backward)
  ∧ m.fc.scale < 4294967296 ∧ (∀ w ∈ m.fc.biases, w < 4294967296)

/-- A concrete well-sized model with `numLayers = hiddenSize = numClasses =
numFeatures = 1` for evaluating the round-trip at one point. -/
def dir0 : LSTMDirectionWeights :=
  ⟨[[1], [2], [3], [4]], [10, 20, 30, 40],
   [[5], [6], [7], [8]], [50, 60, 70, 80],
   [[9], [11], [12], [13]]⟩

def mw0 : ModelWeights := ⟨[⟨dir0, dir0, 1⟩], ⟨[21, 22], 99, [14]⟩⟩

end Parse

/-! ## Schneider curve fitting (`src/unnamed/part_006`, `fit-curves.ts`)

`Math.sqrt` is an explicit function parameter.  The recursion of
`fitCubic` is not structurally decreasing (a degenerate split point can
reproduce the full point list), so the embedding is fuel-indexed and
returns `none` when the fuel runs out; every value the source function
actually returns is `some` of the embedded value for sufficient fuel. -/

namespace Fit

structure BezierCurve (K : Type) where
  p0 : K × K
  p1 : K × K
  p2 : K × K
  p3 : K × K

variable {K : Type} [LinearOrderedField K]

def add (a b : K × K) : K × K := (a.1 + b.1, a.2 + b.2)

def sub (a b : K × K) : K × K := (a.1 - b.1, a.2 - b.2)

def scale (v : K × K) (s : K) : K × K := (v.1 * s, v.2 * s)

def dot (a b : K × K) : K := a.1 * b.1 + a.2 * b.2

def norm (sqrt : K → K) (v : K × K) : K := sqrt (v.1 * v.1 + v.2 * v.2)

def normalize (sqrt : K → K) (v : K × K) : K × K :=
  let n := norm sqrt v
  if n = 0 then (0, 0) else (v.1 / n, v.2 / n)

def q (cp : BezierCurve K) (t : K) : K × K :=
  let mt := 1 - t
  (mt * mt * mt * cp.p0.1 + 3 * mt * mt * t * cp.p1.1
     + 3 * mt * t * t * cp.p2.1 + t * t * t * cp.p3.1,
   mt * mt * mt * cp.p0.2 + 3 * mt * mt * t * cp.p1.2
     + 3 * mt * t * t * cp.p2.2 + t * t * t * cp.p3.2)

def qprime (cp : BezierCurve K) (t : K) : K × K :=
  let mt := 1 - t
  (3 * mt * mt * (cp.p1.1 - cp.p0.1) + 6 * mt * t * (cp.p2.1 - cp.p1.1)
     + 3 * t * t * (cp.p3.1 - cp.p2.1),
   3 * mt * mt * (cp.p1.2 - cp.p0.2) + 6 * mt * t * (cp.p2.2 - cp.p1.2)
     + 3 * t * t * (cp.p3.2 - cp.p2.2))

def qprimeprime (cp : BezierCurve K) (t : K) : K × K :=
  let mt := 1 - t
  (6 * mt * (cp.p2.1 - 2 * cp.p1.1 + cp.p0.1) + 6 * t * (cp.p3.1 - 2 * cp.p2.1 + cp.p1.1),
   6 * mt * (cp.p2.2 - 2 * cp.p1.2 + cp.p0.2) + 6 * t * (cp.p3.2 - 2 * cp.p2.2 + cp.p1.2))

def chordAccum (sqrt : K → K) : List (K × K) → (K × K) → K → List K
  | [], _, _ => []
  | p :: rest, prev, acc =>
    (acc + norm sqrt (sub p prev)) :: chordAccum sqrt rest p (acc + norm sqrt (sub p prev))

def chordLengthParameterize (sqrt : K → K) (points : List (K × K)) : List K :=
  let u : List K := 0 :: (match points with
    | [] => []
    | p :: rest => chordAccum sqrt rest p 0)
  let total := u.getD (u.length - 1) 0
  if 0 < total then u.map (fun x => x / total) else u

def generateBezier (sqrt : K → K) (points : List (K × K)) (parameters : List K)
    (leftTangent rightTangent : K × K) : BezierCurve K :=
  let z : K × K := (0, 0)
  let p0 := points.getD 0 z
  let pn := points.getD (points.length - 1) z
  let A0 := fun i =>
    scale leftTangent (3 * (1 - parameters.getD i 0) * (1 - parameters.getD i 0)
      * parameters.getD i 0)
  let A1 := fun i =>
    scale rightTangent (3 * (1 - parameters.getD i 0) * parameters.getD i 0
      * parameters.getD i 0)
  let tmp := fun i => sub (points.getD i z) (q ⟨p0, p0, pn, pn⟩ (parameters.getD i 0))
  let C00 := ∑ i ∈ Finset.range points.length, dot (A0 i) (A0 i)
  let C01 := ∑ i ∈ Finset.range points.length, dot (A0 i) (A1 i)
  let C11 := ∑ i ∈ Finset.range points.length, dot (A1 i) (A1 i)
  let X0 := ∑ i ∈ Finset.range points.length, dot (A0 i) (tmp i)
  let X1 := ∑ i ∈ Finset.range points.length, dot (A1 i) (tmp i)
  let detC := C00 * C11 - C01 * C01
  let alphaL := if detC = 0 then 0 else (X0 * C11 - X1 * C01) / detC
  let alphaR := if detC = 0 then 0 else (C00 * X1 - C01 * X0) / detC
  let segLength := norm sqrt (sub p0 pn)
  let epsilon := 1 / 1000000 * segLength
  if alphaL < epsilon ∨ alphaR < epsilon then
    ⟨p0, add p0 (scale leftTangent (segLength / 3)),
     add pn (scale rightTangent (segLength / 3)), pn⟩
  else
    ⟨p0, add p0 (scale leftTangent alphaL), add pn (scale rightTangent alphaR), pn⟩

def newtonRaphsonRootFind (bez : BezierCurve K) (point : K × K) (u : K) : K :=
  let d := sub (q bez u) point
  let qp := qprime bez u
  let qpp := qprimeprime bez u
  let numerator := dot d qp
  let denominator := dot qp qp + dot d qpp
  if denominator = 0 then u else u - numerator / denominator

def reparameterize (bez : BezierCurve K) (points : List (K × K))
    (parameters : List K) : List K :=
  (List.range parameters.length).map
    (fun i => newtonRaphsonRootFind bez (points.getD i ((0 : K), (0 : K)))
      (parameters.getD i 0))

def computeMaxError (points : List (K × K)) (bez : BezierCurve K)
    (parameters : List K) : K × ℕ :=
  (List.range points.length).foldl
    (fun acc i =>
      let diff := sub (q bez (parameters.getD i 0)) (points.getD i ((0 : K), (0 : K)))
      let dist := diff.1 * diff.1 + diff.2 * diff.2
      if acc.1 < dist then (dist, i) else acc)
    (0, points.length / 2)

/-- The 20-round reparameterization loop of `fitCubic`; `.inl` is the early
return with a curve under the error bound, `.inr` the state after the loop. -/
def iterate20 (sqrt : K → K) (points : List (K × K)) (lt rt : K × K) (error : K) :
    ℕ → BezierCurve K → List K → K → ℕ →
    Sum (BezierCurve K) (BezierCurve K × List K × K × ℕ)
  | 0, bez, u, me, sp => .inr (bez, u, me, sp)
  | k + 1, bez, u, _, _ =>
    let uP := reparameterize bez points u
    let bez2 := generateBezier sqrt points uP lt rt
    let r := computeMaxError points bez2 uP
    if r.1 < error then .inl bez2
    else iterate20 sqrt points lt rt error k bez2 uP r.1 r.2

def fitCubicF (sqrt : K → K) : ℕ → List (K × K) → (K × K) → (K × K) → K →
    Option (List (BezierCurve K))
  | 0, _, _, _, _ => none
  | fuel + 1, points, leftTangent, rightTangent, error =>
    let z : K × K := (0, 0)
    if points.length = 2 then
      let dist := norm sqrt (sub (points.getD 0 z) (points.getD 1 z)) / 3
      some [⟨points.getD 0 z,
        add (points.getD 0 z) (scale leftTangent dist),
        add (points.getD 1 z) (scale rightTangent dist),
        points.getD 1 z⟩]
    else
      let u := chordLengthParameterize sqrt points
      let bez := generateBezier sqrt points u leftTangent rightTangent
      let r0 := computeMaxError points bez u
      if r0.1 < error then some [bez]
      else
        let st :=
          if r0.1 < error * error then
            iterate20 sqrt points leftTangent rightTangent error 20 bez u r0.1 r0.2
          else .inr (bez, u, r0.1, r0.2)
        match st with
        | .inl b => some [b]
        | .inr (_, _, _, sp) =>
          let centerTangent :=
            normalize sqrt (sub (points.getD (sp - 1) z) (points.getD (sp + 1) z))
          match fitCubicF sqrt fuel (points.take (sp + 1)) leftTangent centerTangent error,
            fitCubicF sqrt fuel (points.drop sp) (scale centerTangent (-1)) rightTangent
              error with
          | some l, some r => some (l ++ r)
          | _, _ => none

def fitCurveF (sqrt : K → K) (fuel : ℕ) (points : List (K × K)) (maxError : K) :
    Option (List (BezierCurve K)) :=
  let z : K × K := (0, 0)
  if points.length < 2 then some []
  else
    let leftTangent := normalize sqrt (sub (points.getD 1 z) (points.getD 0 z))
    let rightTangent := normalize sqrt (sub (points.getD (points.length - 2) z)
      (points.getD (points.length - 1) z))
    fitCubicF sqrt fuel points leftTangent rightTangent maxError

/-- Default Bezier curve used with `List.getD` when indexing results. -/
def zbez : BezierCurve K := ⟨(0, 0), (0, 0), (0, 0), (0, 0)⟩

end Fit

/-! ## Stroke preprocessing (`src/src/preprocessing.ts`)

The curve fitter (the `fitCurve` call wrapped in `try`/`catch`) and the
timestamp feature computation (which matches segment endpoints to the
original point objects by JavaScript reference equality) are abstract
function parameters: every theorem below holds for all of them.  Points
are `(x, y, t)` triples. -/

def minXOf (pts : List (K × K × K)) : K :=
  match pts with
  | [] => 0
  | p :: rest => rest.foldl (fun m p' => min m p'.1) p.1

def maxXOf (pts : List (K × K × K)) : K :=
  match pts with
  | [] => 0
  | p :: rest => rest.foldl (fun m p' => max m p'.1) p.1

def minYOf (pts : List (K × K × K)) : K :=
  match pts with
  | [] => 0
  | p :: rest => rest.foldl (fun m p' => min m p'.2.1) p.2.1

def maxYOf (pts : List (K × K × K)) : K :=
  match pts with
  | [] => 0
  | p :: rest => rest.foldl (fun m p' => max m p'.2.1) p.2.1

def normalizeStrokes (strokes : List (List (K × K × K))) (scale : K) :
    List (List (K × K × K)) :=
  let pts := strokes.flatten
  let minX := minXOf pts
  let minY := minYOf pts
  let extent := max (maxXOf pts - minX) (maxYOf pts - minY)
  let s := if 0 < extent then scale / extent else 1
  strokes.map (fun stroke =>
    stroke.map (fun p => ((p.1 - minX) * s, (p.2.1 - minY) * s, p.2.2)))

def bezierFeatures (mf : MathFns K) (seg : Fit.BezierCurve K) (penDown : Bool)
    (scale : K) (timeFeatures : Option (K × K × K)) : List K :=
  let dx := seg.p3.1 - seg.p0.1
  let dy := seg.p3.2 - seg.p0.2
  let chordLen := mf.sqrt (dx * dx + dy * dy)
  let d1x := seg.p1.1 - seg.p0.1
  let d1y := seg.p1.2 - seg.p0.2
  let d2x := seg.p2.1 - seg.p3.1
  let d2y := seg.p2.2 - seg.p3.2
  let chordNorm := chordLen / scale
  [if penDown then 1 else 0,
   dx / scale,
   dy / scale,
   mf.atan2 (dx * d1y - dy * d1x) (dx * d1x + dy * d1y),
   if 0 < chordLen then mf.sqrt (d1x * d1x + d1y * d1y) / chordLen else 0,
   mf.atan2 (dy * d2x - dx * d2y) (-(dx * d2x + dy * d2y)),
   if 0 < chordLen then mf.sqrt (d2x * d2x + d2y * d2y) / chordLen else 0,
   match timeFeatures with | some t => t.1 | none => chordNorm,
   match timeFeatures with | some t => t.2.1 | none => chordNorm / 3,
   match timeFeatures with | some t => t.2.2 | none => -(chordNorm / 3)]

/-- The synthetic pen-up bridge row between the last point of `prev` and the
first point of `cur` (1/3 and 2/3 control points along the chord). -/
def penUpRow (mf : MathFns K) (scale : K) (prev cur : List (K × K × K)) : List K :=
  let prevLast := prev.getD (prev.length - 1) (0, 0, 0)
  let prevEnd : K × K := (prevLast.1, prevLast.2.1)
  let cur0 := cur.getD 0 (0, 0, 0)
  let curStart : K × K := (cur0.1, cur0.2.1)
  let penUpP1 : K × K := (prevEnd.1 + (curStart.1 - prevEnd.1) / 3,
    prevEnd.2 + (curStart.2 - prevEnd.2) / 3)
  let penUpP2 : K × K := (curStart.1 - (curStart.1 - prevEnd.1) / 3,
    curStart.2 - (curStart.2 - prevEnd.2) / 3)
  bezierFeatures mf ⟨prevEnd, penUpP1, penUpP2, curStart⟩ false scale none

/-- The feature rows contributed by the stroke at `idx` of the normalized
stroke list: nothing when it has fewer than 2 points; otherwise the pen-up
bridge from the array predecessor (when `idx > 0`) followed by one pen-down
row per fitted segment. -/
def strokeRows (mf : MathFns K) (fitter : List (K × K) → List (Fit.BezierCurve K))
    (timeF : List (K × K × K) → Fit.BezierCurve K → Option (K × K × K))
    (scale : K) (normalized : List (List (K × K × K))) (idx : ℕ) : List (List K) :=
  let stroke := normalized.getD idx []
  let points := stroke.map (fun p => (p.1, p.2.1))
  if points.length < 2 then []
  else
    (if 0 < idx then [penUpRow mf scale (normalized.getD (idx - 1) []) stroke] else [])
      ++ (fitter points).map (fun seg => bezierFeatures mf seg true scale (timeF stroke seg))

def preprocessGo (mf : MathFns K) (fitter : List (K × K) → List (Fit.BezierCurve K))
    (timeF : List (K × K × K) → Fit.BezierCurve K → Option (K × K × K))
    (scale : K) (normalized : List (List (K × K × K))) :
    List (List K) → ℕ → ℕ → List (List K)
  | acc, _, 0 => acc
  | acc, idx, n + 1 =>
    preprocessGo mf fitter timeF scale normalized
      (acc ++ strokeRows mf fitter timeF scale normalized idx) (idx + 1) n

def preprocessStrokes (mf : MathFns K)
    (fitter : List (K × K) → List (Fit.BezierCurve K))
    (timeF : List (K × K × K) → Fit.BezierCurve K → Option (K × K × K))
    (strokes : List (List (K × K × K))) (scale : K) : List (List K) :=
  let normalized := normalizeStrokes strokes scale
  preprocessGo mf fitter timeF scale normalized [] 0 normalized.length

/-! # Theorems -/

theorem tsLstmGo_state_eq_spec (mf : MathFns K) (dir : DirWeights K)
    (input : ℕ → ℕ → K) (T inputSize H : ℕ) (reverse : Bool) (n : ℕ) :
    (tsLstmGo mf dir input T inputSize H reverse n).1
      = specLSTMState mf dir input T inputSize H reverse n := by
  induction n with
  | zero => rfl
  | succ n ih =>
    simp only [tsLstmGo, specLSTMState, lstmStep, gatePre, matvecQ, specPre, ih]

/-- The output buffer after `n` iterations: rows written by earlier steps
hold the spec's hidden state; untouched rows are still zero. -/
theorem tsLstmGo_out (mf : MathFns K) (dir : DirWeights K)
    (input : ℕ → ℕ → K) (T inputSize H : ℕ) (reverse : Bool) (n : ℕ) (hn : n ≤ T) :
    ∀ t, (tsLstmGo mf dir input T inputSize H reverse n).2 t
      = if _h : (if reverse then T - 1 - t else t) < n ∧ t < T then
          (specLSTMState mf dir input T inputSize H reverse
            ((if reverse then T - 1 - t else t) + 1)).1
        else fun _ => 0 := by
  induction n with
  | zero =>
    intro t
    simp [tsLstmGo]
  | succ n ih =>
    intro t
    have hn' : n ≤ T := Nat.le_of_succ_le hn
    by_cases ht : t = (if reverse then T - 1 - n else n)
    · subst ht
      have hlt : (if reverse then T - 1 - n else n) < T := by
        cases reverse with
        | false =>
          simpa using Nat.lt_of_lt_of_le (Nat.lt_succ_self n) hn
        | true =>
          have hT : 0 < T := Nat.lt_of_lt_of_le (Nat.succ_pos n) hn
          simpa using Nat.lt_of_le_of_lt (Nat.sub_le (T - 1) n) (Nat.sub_lt hT Nat.one_pos)
      have hidx : (if reverse then T - 1 - (if reverse then T - 1 - n else n)
          else (if reverse then T - 1 - n else n)) = n := by
        cases reverse with
        | false => simp
        | true =>
          have hnT : n ≤ T - 1 := by omega
          simpa using Nat.sub_sub_self hnT
      simp only [tsLstmGo, Function.update_same]
      rw [dif_pos (by rw [hidx]; exact ⟨Nat.lt_succ_self n, hlt⟩)]
      rw [hidx]
      rw [tsLstmGo_state_eq_spec]
      rfl
    · simp only [tsLstmGo, Function.update_noteq (Ne.symm (by exact fun h => ht h.symm))]
      rw [ih hn' t]
      by_cases hc : (if reverse then T - 1 - t else t) < n ∧ t < T
      · rw [dif_pos hc, dif_pos (show _ ∧ _ from ⟨Nat.lt_succ_of_lt hc.1, hc.2⟩)]
      · rw [dif_neg hc, dif_neg ?_]
        rintro ⟨h1, h2⟩
        apply hc
        refine ⟨?_, h2⟩
        rcases Nat.lt_succ_iff_lt_or_eq.mp h1 with h | h
        · exact h
        · exfalso
          apply ht
          cases reverse with
          | false => simpa using h
          | true =>
            have : T - 1 - t = n := by simpa using h
            simp only [if_pos]
            omega

/-! ## Claim C1 -/

/-- C1: in every LSTM direction run the hidden and cell state start at
zero; each step's four gate pre-activations are the gate's bias plus the
dequantized input-kernel product with that timestep's input plus the
dequantized recurrent-kernel product with the previous hidden state,
activated as sigmoid/tanh/sigmoid/sigmoid by gate index with
`c' = f⊙c + i⊙c̃` and `h' = o⊙tanh c'` (all of which is the recurrence
`specLSTMState`); and the hidden state is written to that timestep's
output row. -/
theorem c1_runLSTMDirection_matches_spec (mf : MathFns K) (dir : DirWeights K)
    (input : ℕ → ℕ → K) (T inputSize H : ℕ) (reverse : Bool) (t : ℕ) (ht : t < T) :
    (tsLstmGo mf dir input T inputSize H reverse 0).1 = ((fun _ => 0), fun _ => 0)
    ∧ (∀ n, (tsLstmGo mf dir input T inputSize H reverse n).1
        = specLSTMState mf dir input T inputSize H reverse n)
    ∧ runLSTMDirection mf dir input T inputSize H reverse t
        = (specLSTMState mf dir input T inputSize H reverse
            ((if reverse then T - 1 - t else t) + 1)).1 := by
  refine ⟨rfl, fun n => tsLstmGo_state_eq_spec mf dir input T inputSize H reverse n, ?_⟩
  have hcond : (if reverse then T - 1 - t else t) < T ∧ t < T := by
    refine ⟨?_, ht⟩
    cases reverse with
    | false => simpa using ht
    | true =>
      have hT : 0 < T := Nat.lt_of_le_of_lt (Nat.zero_le t) ht
      simpa using Nat.lt_of_le_of_lt (Nat.sub_le (T - 1) t) (Nat.sub_lt hT Nat.one_pos)
  have := tsLstmGo_out mf dir input T inputSize H reverse T (Nat.le_refl T) t
  rw [runLSTMDirection, this, dif_pos hcond]

theorem c1_runLSTMDirection_matches_spec_witness :
    (0 : ℕ) < 2
    ∧ ((tsLstmGo mfQ dirQ (fun _ _ => 0) 2 1 1 true 0).1 = ((fun _ => 0), fun _ => 0)
      ∧ (∀ n, (tsLstmGo mfQ dirQ (fun _ _ => 0) 2 1 1 true n).1
          = specLSTMState mfQ dirQ (fun _ _ => 0) 2 1 1 true n)
      ∧ runLSTMDirection mfQ dirQ (fun _ _ => 0) 2 1 1 true 0
          = (specLSTMState mfQ dirQ (fun _ _ => 0) 2 1 1 true
              ((if true then 2 - 1 - 0 else 0) + 1)).1) :=
  ⟨by decide,
    c1_runLSTMDirection_matches_spec mfQ dirQ (fun _ _ => 0) 2 1 1 true 0 (by decide)⟩

/-! ## Claim C8 -/

/-- C8: the WASM engine silently clamps at its capacity bounds: for any
`T > MAX_T = 128`, `infer` returns exactly what it returns at `T = 128`
(count and full post-state), and any `topK > MAX_TOP_K = 100` behaves
as `topK = 100`; no error is raised (`infer` is total). -/
theorem c8_wasm_infer_clamps (mf : MathFns K) (m : Wasm.Model K) (features : ℕ → ℕ → K)
    (T0 topK0 : ℕ) (s : Wasm.State K) (hT : 128 < T0) (hK : 100 < topK0) :
    Wasm.infer mf m features T0 topK0 s = Wasm.infer mf m features 128 topK0 s
    ∧ Wasm.infer mf m features T0 topK0 s = Wasm.infer mf m features T0 100 s := by
  have e1 : (if Wasm.MAX_T < T0 then Wasm.MAX_T else T0) = Wasm.MAX_T := if_pos hT
  have e2 : (if Wasm.MAX_T < Wasm.MAX_T then Wasm.MAX_T else Wasm.MAX_T) = Wasm.MAX_T := by
    simp
  have e3 : (if Wasm.MAX_TOP_K < topK0 then Wasm.MAX_TOP_K else topK0) = Wasm.MAX_TOP_K :=
    if_pos hK
  have e4 : (if Wasm.MAX_TOP_K < Wasm.MAX_TOP_K then Wasm.MAX_TOP_K else Wasm.MAX_TOP_K)
      = Wasm.MAX_TOP_K := by simp
  constructor
  · show Wasm.inferClamped _ _ _ _ _ _ = Wasm.inferClamped _ _ _ _ _ _
    rw [e1]
    rw [show (128 : ℕ) = Wasm.MAX_T from rfl, e2]
  · show Wasm.inferClamped _ _ _ _ _ _ = Wasm.inferClamped _ _ _ _ _ _
    rw [e3]
    rw [show (100 : ℕ) = Wasm.MAX_TOP_K from rfl, e4]

theorem c8_wasm_infer_clamps_witness :
    ((128 : ℕ) < 129 ∧ (100 : ℕ) < 101)
    ∧ (Wasm.infer mfQ wmQ (fun _ _ => 0) 129 101 wsQ
        = Wasm.infer mfQ wmQ (fun _ _ => 0) 128 101 wsQ
      ∧ Wasm.infer mfQ wmQ (fun _ _ => 0) 129 101 wsQ
        = Wasm.infer mfQ wmQ (fun _ _ => 0) 129 100 wsQ) :=
  ⟨⟨by decide, by decide⟩,
    c8_wasm_infer_clamps mfQ wmQ (fun _ _ => 0) 129 101 wsQ (by decide) (by decide)⟩

theorem selectTopK_mpBug_eval : Wasm.selectTopK mpBug 6 3 = [(4, 300), (1, 400), (3, 200)] := by
  norm_num [Wasm.selectTopK, Wasm.selStep, mpBug, List.range_succ]

theorem tsEligible_mpBug_eval :
    tsEligible mpBug 6 = [(0, 500), (1, 400), (2, 100), (3, 200), (4, 300)] := by
  norm_num [tsEligible, mpBug, List.range_succ]

unseal List.merge List.mergeSort in
theorem tsSortDesc_mpBug_eval :
    tsSortDesc [((0 : ℕ), (500 : ℚ)), (1, 400), (2, 100), (3, 200), (4, 300)]
      = [(0, 500), (1, 400), (4, 300), (3, 200), (2, 100)] := by
  show List.mergeSort _ _ = _
  rfl

/-- C2 (refuting evidence): on the score profile `mpBug` with
`topK = 3` the WASM `findTopK` drops the class with the highest score
(class 0, score 500) while the TypeScript decoder ranks it first: after
replacing a minimum slot, `findTopK`'s rescan leaves `minSlot = 0`
whenever the newly inserted score is the buffer's new minimum, so the
next candidate evicts slot 0 regardless of that slot's score. -/
theorem c2_wasm_findTopK_diverges_from_ts :
    Wasm.findTopK mpBug 6 3 = [(1, 400), (4, 300), (3, 200)]
    ∧ tsTopK mpBug 6 3 = [(0, 500), (1, 400), (4, 300)]
    ∧ Wasm.findTopK mpBug 6 3 ≠ tsTopK mpBug 6 3 := by
  have h1 : Wasm.findTopK mpBug 6 3 = [(1, 400), (4, 300), (3, 200)] := by
    rw [Wasm.findTopK, selectTopK_mpBug_eval]
    norm_num [Wasm.sortDesc, Wasm.insertDesc]
  have h2 : tsTopK mpBug 6 3 = [(0, 500), (1, 400), (4, 300)] := by
    rw [tsTopK, tsEligible_mpBug_eval, tsSortDesc_mpBug_eval]
    rfl
  refine ⟨h1, h2, ?_⟩
  rw [h1, h2]
  simp

/-! ### Decoder invariants (claim C5) -/

theorem tsTopK_mem {mp : ℕ → K} {numClasses topK : ℕ} {p : ℕ × K}
    (hp : p ∈ tsTopK mp numClasses topK) : p.1 < numClasses - 1 ∧ 1 / 1000 < p.2 := by
  have h1 : p ∈ tsSortDesc (tsEligible mp numClasses) := List.mem_of_mem_take hp
  simp only [tsSortDesc] at h1
  have h2 : p ∈ tsEligible mp numClasses :=
    (List.mergeSort_perm (tsEligible mp numClasses) _).mem_iff.mp h1
  rcases List.mem_map.mp h2 with ⟨i, hi, rfl⟩
  rcases List.mem_filter.mp hi with ⟨hr, hd⟩
  exact ⟨List.mem_range.mp hr, of_decide_eq_true hd⟩

theorem tsTopK_sorted (mp : ℕ → K) (numClasses topK : ℕ) :
    (tsTopK mp numClasses topK).Pairwise (fun a b => b.2 ≤ a.2) := by
  have hs : (tsSortDesc (tsEligible mp numClasses)).Pairwise
      (fun a b : ℕ × K => decide (b.2 ≤ a.2) = true) := by
    simp only [tsSortDesc]
    exact List.sorted_mergeSort
      (fun a b c hab hbc => by
        simp only [decide_eq_true_eq] at *
        exact le_trans hbc hab)
      (fun a b => by
        rcases le_total b.2 a.2 with h | h <;> simp [h])
      (tsEligible mp numClasses)
  exact ((hs.sublist (List.take_sublist _ _)).imp fun h => of_decide_eq_true h)

theorem tsTopK_length (mp : ℕ → K) (numClasses topK : ℕ) :
    (tsTopK mp numClasses topK).length ≤ topK := by
  simp [tsTopK]

theorem wasmSelStep_inv {mp : ℕ → K} {topK numClasses : ℕ}
    {st : List (ℕ × K) × K × ℕ} {i : ℕ}
    (hlen : st.1.length ≤ topK)
    (hmem : ∀ p ∈ st.1, p.1 < numClasses - 1 ∧ 1 / 1000 < p.2)
    (hi : i < numClasses - 1) :
    (Wasm.selStep mp topK st i).1.length ≤ topK
    ∧ ∀ p ∈ (Wasm.selStep mp topK st i).1, p.1 < numClasses - 1 ∧ 1 / 1000 < p.2 := by
  simp only [Wasm.selStep]
  split_ifs with h1 h2 h3 h4
  · exact ⟨hlen, hmem⟩
  · refine ⟨by simpa using h2, ?_⟩
    intro p hp
    rcases List.mem_append.mp hp with hp | hp
    · exact hmem p hp
    · rcases List.mem_singleton.mp hp with rfl
      exact ⟨hi, not_le.mp h1⟩
  · refine ⟨by simpa using h2, ?_⟩
    intro p hp
    rcases List.mem_append.mp hp with hp | hp
    · exact hmem p hp
    · rcases List.mem_singleton.mp hp with rfl
      exact ⟨hi, not_le.mp h1⟩
  · refine ⟨by simpa using hlen, ?_⟩
    intro p hp
    rcases List.mem_or_eq_of_mem_set hp with hp | hp
    · exact hmem p hp
    · rcases hp with rfl
      exact ⟨hi, not_le.mp h1⟩
  · exact ⟨hlen, hmem⟩

theorem wasmSelFold_inv (mp : ℕ → K) (topK numClasses : ℕ) (l : List ℕ)
    (hl : ∀ i ∈ l, i < numClasses - 1) :
    ∀ st : List (ℕ × K) × K × ℕ, st.1.length ≤ topK →
      (∀ p ∈ st.1, p.1 < numClasses - 1 ∧ 1 / 1000 < p.2) →
      (l.foldl (Wasm.selStep mp topK) st).1.length ≤ topK
      ∧ ∀ p ∈ (l.foldl (Wasm.selStep mp topK) st).1,
          p.1 < numClasses - 1 ∧ 1 / 1000 < p.2 := by
  induction l with
  | nil => exact fun st h1 h2 => ⟨h1, h2⟩
  | cons x xs ih =>
    intro st h1 h2
    have hx : x < numClasses - 1 := hl x (List.mem_cons_self x xs)
    have hstep := @wasmSelStep_inv K _ mp topK numClasses st x h1 h2 hx
    exact ih (fun i hi => hl i (List.mem_cons_of_mem x hi)) _ hstep.1 hstep.2

theorem wasmSelectTopK_inv (mp : ℕ → K) (numClasses topK : ℕ) :
    (Wasm.selectTopK mp numClasses topK).length ≤ topK
    ∧ ∀ p ∈ Wasm.selectTopK mp numClasses topK, p.1 < numClasses - 1 ∧ 1 / 1000 < p.2 := by
  have := wasmSelFold_inv mp topK numClasses (List.range (numClasses - 1))
    (fun i hi => List.mem_range.mp hi) ([], 0, 0) (by simp) (by simp)
  exact this

theorem wasmInsertDesc_mem {x p : ℕ × K} {l : List (ℕ × K)} :
    p ∈ Wasm.insertDesc x l ↔ p = x ∨ p ∈ l := by
  induction l with
  | nil => simp [Wasm.insertDesc]
  | cons y ys ih =>
    simp only [Wasm.insertDesc]
    split_ifs with h
    · simp [List.mem_cons]
    · simp only [List.mem_cons, ih]
      tauto

theorem wasmInsertDesc_length (x : ℕ × K) (l : List (ℕ × K)) :
    (Wasm.insertDesc x l).length = l.length + 1 := by
  induction l with
  | nil => rfl
  | cons y ys ih =>
    simp only [Wasm.insertDesc]
    split_ifs with h
    · simp
    · simp [ih]

theorem wasmInsertDesc_sorted {x : ℕ × K} {l : List (ℕ × K)}
    (hl : l.Pairwise (fun a b => b.2 ≤ a.2)) :
    (Wasm.insertDesc x l).Pairwise (fun a b => b.2 ≤ a.2) := by
  induction l with
  | nil => simp [Wasm.insertDesc]
  | cons y ys ih =>
    rcases List.pairwise_cons.mp hl with ⟨hy, hys⟩
    simp only [Wasm.insertDesc]
    split_ifs with h
    · refine List.pairwise_cons.mpr ⟨?_, hl⟩
      intro z hz
      rcases List.mem_cons.mp hz with rfl | hz
      · exact le_of_lt h
      · exact le_trans (hy z hz) (le_of_lt h)
    · refine List.pairwise_cons.mpr ⟨?_, ih hys⟩
      intro z hz
      rcases wasmInsertDesc_mem.mp hz with rfl | hz
      · exact not_lt.mp h
      · exact hy z hz

theorem wasmSortFold_mem (l : List (ℕ × K)) :
    ∀ (acc : List (ℕ × K)) (p : ℕ × K),
      p ∈ l.foldl (fun acc x => Wasm.insertDesc x acc) acc ↔ p ∈ acc ∨ p ∈ l := by
  induction l with
  | nil => simp
  | cons x xs ih =>
    intro acc p
    simp only [List.foldl_cons, ih, wasmInsertDesc_mem, List.mem_cons]
    tauto

theorem wasmSortFold_sorted (l : List (ℕ × K)) :
    ∀ acc : List (ℕ × K), acc.Pairwise (fun a b => b.2 ≤ a.2) →
      (l.foldl (fun acc x => Wasm.insertDesc x acc) acc).Pairwise (fun a b => b.2 ≤ a.2) := by
  induction l with
  | nil => exact fun acc h => h
  | cons x xs ih =>
    intro acc hacc
    exact ih _ (wasmInsertDesc_sorted hacc)

theorem wasmSortFold_length (l : List (ℕ × K)) :
    ∀ acc : List (ℕ × K),
      (l.foldl (fun acc x => Wasm.insertDesc x acc) acc).length = acc.length + l.length := by
  induction l with
  | nil => simp
  | cons x xs ih =>
    intro acc
    rw [List.foldl_cons, ih, wasmInsertDesc_length]
    simp only [List.length_cons]
    omega

theorem wasmFindTopK_inv (mp : ℕ → K) (numClasses topK : ℕ) :
    (∀ p ∈ Wasm.findTopK mp numClasses topK, p.1 < numClasses - 1 ∧ 1 / 1000 < p.2)
    ∧ (Wasm.findTopK mp numClasses topK).Pairwise (fun a b => b.2 ≤ a.2)
    ∧ (Wasm.findTopK mp numClasses topK).length ≤ topK := by
  rcases wasmSelectTopK_inv mp numClasses topK with ⟨hlen, hmem⟩
  refine ⟨?_, ?_, ?_⟩
  · intro p hp
    have := (wasmSortFold_mem (Wasm.selectTopK mp numClasses topK) [] p).mp hp
    rcases this with h | h
    · simp at h
    · exact hmem p h
  · exact wasmSortFold_sorted _ [] (by simp)
  · have := wasmSortFold_length (Wasm.selectTopK mp numClasses topK) []
    simpa [Wasm.findTopK, Wasm.sortDesc, this] using hlen

/-! ## Claim C5 -/

/-- C5: every result list produced by the decoders (the TypeScript
`runFCAndDecode` top-K stage and the WASM `findTopK`) contains only
class indices in `[0, numClasses - 2]` (the blank `numClasses - 1` is
never returned), only scores strictly above the 0.001 threshold, is
sorted by score in descending order, and has at most `topK` entries. -/
theorem c5_decoder_result_invariants (mp mpW : ℕ → K) (numClasses topK : ℕ) :
    ((∀ p ∈ tsTopK mp numClasses topK, p.1 < numClasses - 1 ∧ 1 / 1000 < p.2)
      ∧ (tsTopK mp numClasses topK).Pairwise (fun a b => b.2 ≤ a.2)
      ∧ (tsTopK mp numClasses topK).length ≤ topK)
    ∧ ((∀ p ∈ Wasm.findTopK mpW numClasses topK, p.1 < numClasses - 1 ∧ 1 / 1000 < p.2)
      ∧ (Wasm.findTopK mpW numClasses topK).Pairwise (fun a b => b.2 ≤ a.2)
      ∧ (Wasm.findTopK mpW numClasses topK).length ≤ topK) :=
  ⟨⟨fun _ hp => tsTopK_mem hp, tsTopK_sorted mp numClasses topK,
      tsTopK_length mp numClasses topK⟩,
    wasmFindTopK_inv mpW numClasses topK⟩

theorem c5_decoder_result_invariants_witness :
    ((∀ p ∈ tsTopK mpBug 6 3, p.1 < 6 - 1 ∧ (1 : ℚ) / 1000 < p.2)
      ∧ (tsTopK mpBug 6 3).Pairwise (fun a b => b.2 ≤ a.2)
      ∧ (tsTopK mpBug 6 3).length ≤ 3)
    ∧ ((∀ p ∈ Wasm.findTopK mpBug 6 3, p.1 < 6 - 1 ∧ (1 : ℚ) / 1000 < p.2)
      ∧ (Wasm.findTopK mpBug 6 3).Pairwise (fun a b => b.2 ≤ a.2)
      ∧ (Wasm.findTopK mpBug 6 3).length ≤ 3) :=
  c5_decoder_result_invariants mpBug mpBug 6 3

/-! ### WASM engine: the visible outputs are state-independent (claim C9) -/

theorem specLSTMState_congr (mf : MathFns K) (dir : DirWeights K)
    (input₁ input₂ : ℕ → ℕ → K) (T inputSize H : ℕ) (reverse : Bool)
    (hin : ∀ t, t < T → ∀ j, j < inputSize → input₁ t j = input₂ t j) :
    ∀ n, n ≤ T →
      specLSTMState mf dir input₁ T inputSize H reverse n
        = specLSTMState mf dir input₂ T inputSize H reverse n := by
  intro n
  induction n with
  | zero => intro _; rfl
  | succ n ih =>
    intro hn
    have hn' : n ≤ T := Nat.le_of_succ_le hn
    have ht : (if reverse then T - 1 - n else n) < T := by
      cases reverse with
      | false => simpa using Nat.lt_of_lt_of_le (Nat.lt_succ_self n) hn
      | true =>
        have hT : 0 < T := Nat.lt_of_lt_of_le (Nat.succ_pos n) hn
        simpa using Nat.lt_of_le_of_lt (Nat.sub_le (T - 1) n) (Nat.sub_lt hT Nat.one_pos)
    have hx : ∀ g i, (∑ j ∈ Finset.range inputSize,
          (toInt8 (dir.inputKernels g i j) : K) * input₁ (if reverse then T - 1 - n else n) j)
        = ∑ j ∈ Finset.range inputSize,
          (toInt8 (dir.inputKernels g i j) : K) * input₂ (if reverse then T - 1 - n else n) j := by
      intro g i
      refine Finset.sum_congr rfl fun j hj => ?_
      rw [hin _ ht j (Finset.mem_range.mp hj)]
    simp only [specLSTMState, specPre, ih hn', hx]

theorem gatePre_congr_h (dir : DirWeights K) (inputSize H : ℕ) (x h₁ h₂ : ℕ → K)
    (hh : ∀ j, j < H → h₁ j = h₂ j) (g i : ℕ) :
    gatePre dir inputSize H x h₁ g i = gatePre dir inputSize H x h₂ g i := by
  simp only [gatePre, matvecQ]
  have hs : (∑ j ∈ Finset.range H, (toInt8 (dir.recKernels g i j) : K) * h₁ j)
      = ∑ j ∈ Finset.range H, (toInt8 (dir.recKernels g i j) : K) * h₂ j :=
    Finset.sum_congr rfl fun j hj => by rw [hh j (Finset.mem_range.mp hj)]
  rw [hs]

theorem gatePre_eq_specPre (dir : DirWeights K) (inputSize H : ℕ) (x h : ℕ → K) (g i : ℕ) :
    gatePre dir inputSize H x h g i = specPre dir inputSize H x h g i := rfl

/-- Flat gate-buffer slot arithmetic: slot `H * k + i` decodes to gate
`k`, row `i`. -/
theorem gateSlot_decode {H k i : ℕ} (hi : i < H) (hk : k < 4) :
    H * k + i < 4 * H ∧ (H * k + i) / H = k ∧ (H * k + i) % H = i := by
  have hH : 0 < H := Nat.lt_of_le_of_lt (Nat.zero_le i) hi
  refine ⟨?_, ?_, ?_⟩
  · calc H * k + i < H * k + H := by omega
    _ = H * (k + 1) := by ring
    _ ≤ H * 4 := Nat.mul_le_mul_left H hk
    _ = 4 * H := by ring
  · rw [Nat.mul_add_div hH, Nat.div_eq_of_lt hi]
    omega
  · rw [Nat.mul_add_mod, Nat.mod_eq_of_lt hi]

theorem wasmDirGo_char (mf : MathFns K) (dir : DirWeights K) (input : ℕ → ℕ → K)
    (T inputSize H : ℕ) (reverse : Bool) (st : Wasm.DirSt K)
    (hh0 : ∀ i, i < H → st.hb i = 0) (hc0 : ∀ i, i < H → st.cb i = 0) :
    ∀ n, n ≤ T →
      (∀ i, i < H →
        (Wasm.dirGo mf dir input T inputSize H reverse n st).hb i
          = (specLSTMState mf dir input T inputSize H reverse n).1 i
        ∧ (Wasm.dirGo mf dir input T inputSize H reverse n st).cb i
          = (specLSTMState mf dir input T inputSize H reverse n).2 i)
      ∧ ∀ t j, (Wasm.dirGo mf dir input T inputSize H reverse n st).out t j
          = if (if reverse then T - 1 - t else t) < n ∧ t < T ∧ j < H then
              (specLSTMState mf dir input T inputSize H reverse
                ((if reverse then T - 1 - t else t) + 1)).1 j
            else st.out t j := by
  intro n
  induction n with
  | zero =>
    intro _
    refine ⟨fun i hi => ⟨hh0 i hi, hc0 i hi⟩, fun t j => ?_⟩
    simp [Wasm.dirGo]
  | succ n ih =>
    intro hn
    have hn' : n ≤ T := Nat.le_of_succ_le hn
    obtain ⟨ihs, iho⟩ := ih hn'
    have htnT : (if reverse then T - 1 - n else n) < T := by
      cases reverse with
      | false => simpa using Nat.lt_of_lt_of_le (Nat.lt_succ_self n) hn
      | true =>
        have hT : 0 < T := Nat.lt_of_lt_of_le (Nat.succ_pos n) hn
        simpa using Nat.lt_of_le_of_lt (Nat.sub_le (T - 1) n) (Nat.sub_lt hT Nat.one_pos)
    -- the gate buffer built by this step agrees with the spec's pre-activations
    have hg : ∀ k i, k < 4 → i < H →
        (if H * k + i < 4 * H then
            gatePre dir inputSize H (input (if reverse then T - 1 - n else n))
              (Wasm.dirGo mf dir input T inputSize H reverse n st).hb
              ((H * k + i) / H) ((H * k + i) % H)
          else (Wasm.dirGo mf dir input T inputSize H reverse n st).gates (H * k + i))
        = specPre dir inputSize H (input (if reverse then T - 1 - n else n))
            (specLSTMState mf dir input T inputSize H reverse n).1 k i := by
      intro k i hk hi
      obtain ⟨hlt, hdiv, hmod⟩ := gateSlot_decode hi hk
      rw [if_pos hlt, hdiv, hmod]
      rw [gatePre_congr_h dir inputSize H _ _
          (specLSTMState mf dir input T inputSize H reverse n).1
          (fun j hj => (ihs j hj).1) k i]
      exact gatePre_eq_specPre dir inputSize H _ _ k i
    have hg0 : ∀ i, i < H →
        (if i < 4 * H then
            gatePre dir inputSize H (input (if reverse then T - 1 - n else n))
              (Wasm.dirGo mf dir input T inputSize H reverse n st).hb (i / H) (i % H)
          else (Wasm.dirGo mf dir input T inputSize H reverse n st).gates i)
        = specPre dir inputSize H (input (if reverse then T - 1 - n else n))
            (specLSTMState mf dir input T inputSize H reverse n).1 0 i := by
      intro i hi
      have h := hg 0 i (by omega) hi
      rw [show H * 0 + i = i by ring] at h
      exact h
    have hg1 : ∀ i, i < H →
        (if H + i < 4 * H then
            gatePre dir inputSize H (input (if reverse then T - 1 - n else n))
              (Wasm.dirGo mf dir input T inputSize H reverse n st).hb ((H + i) / H) ((H + i) % H)
          else (Wasm.dirGo mf dir input T inputSize H reverse n st).gates (H + i))
        = specPre dir inputSize H (input (if reverse then T - 1 - n else n))
            (specLSTMState mf dir input T inputSize H reverse n).1 1 i := by
      intro i hi
      have h := hg 1 i (by omega) hi
      rw [show H * 1 + i = H + i by ring] at h
      exact h
    have hg2 : ∀ i, i < H →
        (if 2 * H + i < 4 * H then
            gatePre dir inputSize H (input (if reverse then T - 1 - n else n))
              (Wasm.dirGo mf dir input T inputSize H reverse n st).hb
              ((2 * H + i) / H) ((2 * H + i) % H)
          else (Wasm.dirGo mf dir input T inputSize H reverse n st).gates (2 * H + i))
        = specPre dir inputSize H (input (if reverse then T - 1 - n else n))
            (specLSTMState mf dir input T inputSize H reverse n).1 2 i := by
      intro i hi
      have h := hg 2 i (by omega) hi
      rw [show H * 2 + i = 2 * H + i by ring] at h
      exact h
    have hg3 : ∀ i, i < H →
        (if 3 * H + i < 4 * H then
            gatePre dir inputSize H (input (if reverse then T - 1 - n else n))
              (Wasm.dirGo mf dir input T inputSize H reverse n st).hb
              ((3 * H + i) / H) ((3 * H + i) % H)
          else (Wasm.dirGo mf dir input T inputSize H reverse n st).gates (3 * H + i))
        = specPre dir inputSize H (input (if reverse then T - 1 - n else n))
            (specLSTMState mf dir input T inputSize H reverse n).1 3 i := by
      intro i hi
      have h := hg 3 i (by omega) hi
      rw [show H * 3 + i = 3 * H + i by ring] at h
      exact h
    constructor
    · intro i hi
      constructor
      · show (Wasm.dirStep mf dir inputSize H (input (if reverse then T - 1 - n else n))
            (if reverse then T - 1 - n else n)
            (Wasm.dirGo mf dir input T inputSize H reverse n st)).hb i = _
        simp only [Wasm.dirStep]
        rw [if_pos hi, if_pos hi]
        rw [hg3 i hi, hg2 i hi, hg1 i hi, hg0 i hi, (ihs i hi).2]
        simp only [specLSTMState]
      · show (Wasm.dirStep mf dir inputSize H (input (if reverse then T - 1 - n else n))
            (if reverse then T - 1 - n else n)
            (Wasm.dirGo mf dir input T inputSize H reverse n st)).cb i = _
        simp only [Wasm.dirStep]
        rw [if_pos hi]
        rw [hg2 i hi, hg1 i hi, hg0 i hi, (ihs i hi).2]
        simp only [specLSTMState]
    · intro t j
      show (Wasm.dirStep mf dir inputSize H (input (if reverse then T - 1 - n else n))
          (if reverse then T - 1 - n else n)
          (Wasm.dirGo mf dir input T inputSize H reverse n st)).out t j = _
      simp only [Wasm.dirStep]
      by_cases ht : t = (if reverse then T - 1 - n else n)
      · subst ht
        simp only [Function.update_same]
        have hidx : (if reverse then T - 1 - (if reverse then T - 1 - n else n)
            else (if reverse then T - 1 - n else n)) = n := by
          cases reverse with
          | false => simp
          | true =>
            have hnT : n ≤ T - 1 := by omega
            simpa using Nat.sub_sub_self hnT
        by_cases hj : j < H
        · rw [if_pos hj]
          have hcnd : (if reverse then T - 1 - (if reverse then T - 1 - n else n)
              else (if reverse then T - 1 - n else n)) < n + 1
              ∧ (if reverse then T - 1 - n else n) < T ∧ j < H :=
            ⟨by rw [hidx]; exact Nat.lt_succ_self n, htnT, hj⟩
          rw [if_pos hcnd]
          rw [hidx]
          rw [if_pos hj]
          rw [hg3 j hj, hg2 j hj, hg1 j hj, hg0 j hj, (ihs j hj).2]
          rw [if_pos hj]
          simp only [specLSTMState]
        · rw [if_neg hj]
          rw [iho (if reverse then T - 1 - n else n) j]
          simp only [hj, and_false, if_false]
      · rw [Function.update_noteq (by exact fun h => ht h)]
        rw [iho t j]
        by_cases hcond : (if reverse then T - 1 - t else t) < n ∧ t < T ∧ j < H
        · rw [if_pos hcond, if_pos (show _ ∧ _ ∧ _ from ⟨Nat.lt_succ_of_lt hcond.1, hcond.2.1, hcond.2.2⟩)]
        · rw [if_neg hcond, if_neg ?_]
          rintro ⟨h1, h2, h3⟩
          apply hcond
          refine ⟨?_, h2, h3⟩
          rcases Nat.lt_succ_iff_lt_or_eq.mp h1 with h | h
          · exact h
          · exfalso
            apply ht
            cases reverse with
            | false => simpa using h
            | true =>
              have htt : T - 1 - t = n := by simpa using h
              simp only [if_pos]
              omega

theorem idxOf_lt {T t : ℕ} (reverse : Bool) (ht : t < T) :
    (if reverse then T - 1 - t else t) < T := by
  cases reverse with
  | false => simpa using ht
  | true =>
    have hT : 0 < T := Nat.lt_of_le_of_lt (Nat.zero_le t) ht
    simpa using Nat.lt_of_le_of_lt (Nat.sub_le (T - 1) t) (Nat.sub_lt hT Nat.one_pos)

theorem wasmRunLSTMDirection_row (mf : MathFns K) (dir : DirWeights K)
    (input : ℕ → ℕ → K) (T inputSize H : ℕ) (reverse : Bool) (st : Wasm.DirSt K)
    (t j : ℕ) (ht : t < T) (hj : j < H) :
    (Wasm.runLSTMDirection mf dir input T inputSize H reverse st).out t j
      = (specLSTMState mf dir input T inputSize H reverse
          ((if reverse then T - 1 - t else t) + 1)).1 j := by
  have h := (wasmDirGo_char mf dir input T inputSize H reverse
    { st with hb := fun i => if i < H then 0 else st.hb i,
              cb := fun i => if i < H then 0 else st.cb i }
    (fun i hi => by simp [hi]) (fun i hi => by simp [hi]) T (Nat.le_refl T)).2 t j
  rw [Wasm.runLSTMDirection, h, if_pos ⟨idxOf_lt reverse ht, ht, hj⟩]

theorem tsRunLSTMDirection_row (mf : MathFns K) (dir : DirWeights K)
    (input : ℕ → ℕ → K) (T inputSize H : ℕ) (reverse : Bool) (t : ℕ) (ht : t < T) :
    runLSTMDirection mf dir input T inputSize H reverse t
      = (specLSTMState mf dir input T inputSize H reverse
          ((if reverse then T - 1 - t else t) + 1)).1 := by
  have h := tsLstmGo_out mf dir input T inputSize H reverse T (Nat.le_refl T) t
  rw [runLSTMDirection, h, dif_pos ⟨idxOf_lt reverse ht, ht⟩]

/-- Rows of a WASM BiLSTM layer run agree with the portable TypeScript
layer inside the `[T × 2H]` window, for any scratch state and any input
buffer agreeing with the reference input on its own window. -/
theorem wasmRunBiLSTMLayer_row (mf : MathFns K) (layer : BiLayer K) (H T : ℕ)
    (inputW inputT : ℕ → ℕ → K) (s : Wasm.State K) (target : ℕ → ℕ → K)
    (hin : ∀ t, t < T → ∀ j, j < layer.inputSize → inputW t j = inputT t j) :
    ∀ t, t < T → ∀ j, j < 2 * H →
      (Wasm.runBiLSTMLayer mf layer H inputW T s target).2 t j
        = runBiLSTMLayer mf layer inputT T H t j := by
  intro t ht j hj
  have hcongr : ∀ (reverse : Bool) (dir : DirWeights K),
      specLSTMState mf dir inputW T layer.inputSize H reverse
          ((if reverse then T - 1 - t else t) + 1)
        = specLSTMState mf dir inputT T layer.inputSize H reverse
          ((if reverse then T - 1 - t else t) + 1) := by
    intro reverse dir
    exact specLSTMState_congr mf dir inputW inputT T layer.inputSize H reverse hin _
      (Nat.succ_le_of_lt (idxOf_lt reverse ht))
  simp only [Wasm.runBiLSTMLayer, runBiLSTMLayer]
  rw [if_pos ht]
  by_cases hjH : j < H
  · rw [if_pos hjH, if_pos hjH]
    rw [wasmRunLSTMDirection_row mf layer.forward inputW T layer.inputSize H false _ t j ht hjH]
    rw [tsRunLSTMDirection_row mf layer.forward inputT T layer.inputSize H false t ht]
    rw [hcongr false layer.forward]
  · rw [if_neg hjH, if_pos hj, if_neg hjH]
    have hjm : j - H < H := by omega
    rw [wasmRunLSTMDirection_row mf layer.backward inputW T layer.inputSize H true _ t
      (j - H) ht hjm]
    rw [tsRunLSTMDirection_row mf layer.backward inputT T layer.inputSize H true t ht]
    rw [hcongr true layer.backward]

theorem wasmFcLogitW_congr (fc : FCWeights K) (inputSize : ℕ) (x₁ x₂ : ℕ → K)
    (hx : ∀ j, j < inputSize → x₁ j = x₂ j) (i : ℕ) :
    Wasm.fcLogitW fc inputSize x₁ i = Wasm.fcLogitW fc inputSize x₂ i := by
  simp only [Wasm.fcLogitW, matvecQ]
  have hs : (∑ j ∈ Finset.range inputSize, (toInt8 (fc.weights i j) : K) * x₁ j)
      = ∑ j ∈ Finset.range inputSize, (toInt8 (fc.weights i j) : K) * x₂ j :=
    Finset.sum_congr rfl fun j hj => by rw [hx j (Finset.mem_range.mp hj)]
  rw [hs]

theorem wasmMaxLogitW_congr (f g : ℕ → K) (n : ℕ) (h : ∀ k, k < n → f k = g k) :
    Wasm.maxLogitW f n = Wasm.maxLogitW g n := by
  induction n with
  | zero => rfl
  | succ n ih =>
    simp only [Wasm.maxLogitW, List.range_succ, List.foldl_append, List.foldl_cons,
      List.foldl_nil]
    have hfold : (List.range n).foldl (fun m i => if m < f i then f i else m) Wasm.f32MinValue
        = (List.range n).foldl (fun m i => if m < g i then g i else m) Wasm.f32MinValue := by
      have := ih (fun k hk => h k (Nat.lt_succ_of_lt hk))
      simpa [Wasm.maxLogitW] using this
    rw [hfold, h n (Nat.lt_succ_self n)]

theorem wasmDecodeStep_congr (exp : K → K) (fc : FCWeights K) (inputSize numClasses : ℕ)
    (x₁ x₂ : ℕ → K) (st₁ st₂ : (ℕ → K) × (ℕ → K))
    (hx : ∀ j, j < inputSize → x₁ j = x₂ j)
    (hmp : ∀ i, i < numClasses → st₁.2 i = st₂.2 i) :
    ∀ i, i < numClasses →
      (Wasm.decodeStep exp fc inputSize numClasses x₁ st₁).2 i
        = (Wasm.decodeStep exp fc inputSize numClasses x₂ st₂).2 i := by
  intro i hi
  have hlg : ∀ k, k < numClasses →
      (if k < numClasses then Wasm.fcLogitW fc inputSize x₁ k else st₁.1 k)
        = (if k < numClasses then Wasm.fcLogitW fc inputSize x₂ k else st₂.1 k) := by
    intro k hk
    rw [if_pos hk, if_pos hk, wasmFcLogitW_congr fc inputSize x₁ x₂ hx k]
  have hm : Wasm.maxLogitW
      (fun k => if k < numClasses then Wasm.fcLogitW fc inputSize x₁ k else st₁.1 k) numClasses
      = Wasm.maxLogitW
      (fun k => if k < numClasses then Wasm.fcLogitW fc inputSize x₂ k else st₂.1 k)
        numClasses :=
    wasmMaxLogitW_congr _ _ numClasses hlg
  have hsum : (∑ k ∈ Finset.range numClasses,
        exp ((if k < numClasses then Wasm.fcLogitW fc inputSize x₁ k else st₁.1 k)
          - Wasm.maxLogitW
            (fun k => if k < numClasses then Wasm.fcLogitW fc inputSize x₁ k else st₁.1 k)
            numClasses))
      = ∑ k ∈ Finset.range numClasses,
        exp ((if k < numClasses then Wasm.fcLogitW fc inputSize x₂ k else st₂.1 k)
          - Wasm.maxLogitW
            (fun k => if k < numClasses then Wasm.fcLogitW fc inputSize x₂ k else st₂.1 k)
            numClasses) := by
    refine Finset.sum_congr rfl fun k hk => ?_
    rw [hlg k (Finset.mem_range.mp hk), hm]
  simp only [Wasm.decodeStep]
  rw [hmp i hi]
  rw [hsum, hm, hlg i hi]

theorem wasmDecodeGo_congr (exp : K → K) (fc : FCWeights K) (inputSize numClasses : ℕ)
    (in₁ in₂ : ℕ → ℕ → K) (T : ℕ) (lg₁ mp₁ lg₂ mp₂ : ℕ → K)
    (hin : ∀ t, t < T → ∀ j, j < inputSize → in₁ t j = in₂ t j) :
    ∀ i, i < numClasses →
      (Wasm.decodeGo exp fc inputSize numClasses in₁ T lg₁ mp₁).2 i
        = (Wasm.decodeGo exp fc inputSize numClasses in₂ T lg₂ mp₂).2 i := by
  have main : ∀ (l : List ℕ), (∀ t ∈ l, t < T) →
      ∀ (st₁ st₂ : (ℕ → K) × (ℕ → K)), (∀ i, i < numClasses → st₁.2 i = st₂.2 i) →
      ∀ i, i < numClasses →
        (l.foldl (fun st t => Wasm.decodeStep exp fc inputSize numClasses (in₁ t) st) st₁).2 i
          = (l.foldl (fun st t => Wasm.decodeStep exp fc inputSize numClasses (in₂ t) st)
              st₂).2 i := by
    intro l
    induction l with
    | nil => exact fun _ st₁ st₂ h i hi => h i hi
    | cons t ts ih =>
      intro hl st₁ st₂ h i hi
      have htT : t < T := hl t (List.mem_cons_self t ts)
      simp only [List.foldl_cons]
      exact ih (fun u hu => hl u (List.mem_cons_of_mem t hu)) _ _
        (wasmDecodeStep_congr exp fc inputSize numClasses (in₁ t) (in₂ t) st₁ st₂
          (fun j hj => hin t htT j hj) h) i hi
  intro i hi
  exact main (List.range T) (fun t htl => List.mem_range.mp htl) _ _
    (fun k hk => by simp [hk]) i hi

theorem wasmSelStep_congr (f g : ℕ → K) (topK : ℕ) (st : List (ℕ × K) × K × ℕ) (i : ℕ)
    (h : f i = g i) : Wasm.selStep f topK st i = Wasm.selStep g topK st i := by
  simp only [Wasm.selStep, h]

theorem wasmFindTopK_congr (f g : ℕ → K) (numClasses topK : ℕ)
    (h : ∀ i, i < numClasses - 1 → f i = g i) :
    Wasm.findTopK f numClasses topK = Wasm.findTopK g numClasses topK := by
  have main : ∀ (l : List ℕ), (∀ i ∈ l, i < numClasses - 1) →
      ∀ st : List (ℕ × K) × K × ℕ,
        l.foldl (Wasm.selStep f topK) st = l.foldl (Wasm.selStep g topK) st := by
    intro l
    induction l with
    | nil => exact fun _ st => rfl
    | cons i ts ih =>
      intro hl st
      simp only [List.foldl_cons]
      rw [wasmSelStep_congr f g topK st i (h i (hl i (List.mem_cons_self i ts)))]
      exact ih (fun u hu => hl u (List.mem_cons_of_mem i hu)) _
  unfold Wasm.findTopK Wasm.selectTopK
  rw [main (List.range (numClasses - 1)) (fun i hi => List.mem_range.mp hi) ([], 0, 0)]

theorem wasmRunFCAndDecode_visible (exp : K → K) (fc : FCWeights K) (H numClasses : ℕ)
    (in₁ in₂ : ℕ → ℕ → K) (T topK : ℕ) (s₁ s₂ : Wasm.State K)
    (hin : ∀ t, t < T → ∀ j, j < H * 2 → in₁ t j = in₂ t j) :
    (Wasm.runFCAndDecode exp fc H numClasses in₁ T topK s₁).1
      = (Wasm.runFCAndDecode exp fc H numClasses in₂ T topK s₂).1
    ∧ ∀ i, i < (Wasm.runFCAndDecode exp fc H numClasses in₁ T topK s₁).1 →
        (Wasm.runFCAndDecode exp fc H numClasses in₁ T topK s₁).2.resultIdx i
          = (Wasm.runFCAndDecode exp fc H numClasses in₂ T topK s₂).2.resultIdx i
        ∧ (Wasm.runFCAndDecode exp fc H numClasses in₁ T topK s₁).2.resultScr i
          = (Wasm.runFCAndDecode exp fc H numClasses in₂ T topK s₂).2.resultScr i := by
  have hmp := wasmDecodeGo_congr exp fc (H * 2) numClasses in₁ in₂ T s₁.logits s₁.maxProb
    s₂.logits s₂.maxProb hin
  have hres : Wasm.findTopK
      (Wasm.decodeGo exp fc (H * 2) numClasses in₁ T s₁.logits s₁.maxProb).2 numClasses topK
      = Wasm.findTopK
      (Wasm.decodeGo exp fc (H * 2) numClasses in₂ T s₂.logits s₂.maxProb).2 numClasses
        topK :=
    wasmFindTopK_congr _ _ numClasses topK (fun i hi => hmp i (by omega))
  refine ⟨?_, ?_⟩
  · show (Wasm.findTopK _ numClasses topK).length = (Wasm.findTopK _ numClasses topK).length
    rw [hres]
  · intro i hi
    have hi₁ : i < (Wasm.findTopK
        (Wasm.decodeGo exp fc (H * 2) numClasses in₁ T s₁.logits s₁.maxProb).2 numClasses
          topK).length := hi
    have hi' : i < (Wasm.findTopK
        (Wasm.decodeGo exp fc (H * 2) numClasses in₂ T s₂.logits s₂.maxProb).2 numClasses
          topK).length := by
      rw [← hres]
      exact hi₁
    constructor
    · show (if i < (Wasm.findTopK _ numClasses topK).length then _ else s₁.resultIdx i)
        = (if i < (Wasm.findTopK _ numClasses topK).length then _ else s₂.resultIdx i)
      rw [if_pos hi₁, if_pos hi', hres]
    · show (if i < (Wasm.findTopK _ numClasses topK).length then _ else s₁.resultScr i)
        = (if i < (Wasm.findTopK _ numClasses topK).length then _ else s₂.resultScr i)
      rw [if_pos hi₁, if_pos hi', hres]

/-- Rows of the four chained WASM layers agree with the chained
TypeScript layers inside the window, for any intermediate scratch
states and target buffers. -/
theorem wasmLayerChain_row (mf : MathFns K) (m : Wasm.Model K) (features : ℕ → ℕ → K)
    (T : ℕ) (sa sb sc sd : Wasm.State K) (ta tb tc td : ℕ → ℕ → K) :
    ∀ t, t < T → ∀ j, j < 2 * m.H →
      (Wasm.runBiLSTMLayer mf (Wasm.layerOf m 3) m.H
        (Wasm.runBiLSTMLayer mf (Wasm.layerOf m 2) m.H
          (Wasm.runBiLSTMLayer mf (Wasm.layerOf m 1) m.H
            (Wasm.runBiLSTMLayer mf (Wasm.layerOf m 0) m.H features T sa ta).2
            T sb tb).2
          T sc tc).2
        T sd td).2 t j
      = runBiLSTMLayer mf (Wasm.layerOf m 3)
          (runBiLSTMLayer mf (Wasm.layerOf m 2)
            (runBiLSTMLayer mf (Wasm.layerOf m 1)
              (runBiLSTMLayer mf (Wasm.layerOf m 0) features T m.H) T m.H) T m.H)
          T m.H t j := by
  have hsize : ∀ l : ℕ, l ≠ 0 → (Wasm.layerOf m l).inputSize = m.H * 2 := by
    intro l hl
    simp [Wasm.layerOf, Wasm.layerInputSize, hl]
  have hsucc : ∀ (l : ℕ), l ≠ 0 → ∀ (s' : Wasm.State K) (target input ref : ℕ → ℕ → K),
      (∀ t, t < T → ∀ j, j < 2 * m.H → input t j = ref t j) →
      ∀ t, t < T → ∀ j, j < 2 * m.H →
        (Wasm.runBiLSTMLayer mf (Wasm.layerOf m l) m.H input T s' target).2 t j
          = runBiLSTMLayer mf (Wasm.layerOf m l) ref T m.H t j := by
    intro l hl s' target input ref hi t ht j hj
    refine wasmRunBiLSTMLayer_row mf (Wasm.layerOf m l) m.H T input ref s' target ?_ t ht j hj
    intro t' ht' j' hj'
    rw [hsize l hl] at hj'
    exact hi t' ht' j' (by omega)
  intro t ht j hj
  refine hsucc 3 (by omega) _ _ _ _ ?_ t ht j hj
  intro t2 ht2 j2 hj2
  refine hsucc 2 (by omega) _ _ _ _ ?_ t2 ht2 j2 hj2
  intro t1 ht1 j1 hj1
  refine hsucc 1 (by omega) _ _ _ _ ?_ t1 ht1 j1 hj1
  intro t0 ht0 j0 hj0
  exact wasmRunBiLSTMLayer_row mf (Wasm.layerOf m 0) m.H T features features sa ta
    (fun _ _ _ _ => rfl) t0 ht0 j0 hj0

theorem wasmInferClamped_visible (mf : MathFns K) (m : Wasm.Model K)
    (features : ℕ → ℕ → K) (T topK : ℕ) (s₁ s₂ : Wasm.State K) :
    (Wasm.inferClamped mf m features T topK s₁).1
      = (Wasm.inferClamped mf m features T topK s₂).1
    ∧ ∀ i, i < (Wasm.inferClamped mf m features T topK s₁).1 →
        (Wasm.inferClamped mf m features T topK s₁).2.resultIdx i
          = (Wasm.inferClamped mf m features T topK s₂).2.resultIdx i
        ∧ (Wasm.inferClamped mf m features T topK s₁).2.resultScr i
          = (Wasm.inferClamped mf m features T topK s₂).2.resultScr i := by
  exact wasmRunFCAndDecode_visible mf.exp m.fc m.H m.numClasses _ _ T topK _ _
    (fun t ht j hj => by
      have hj' : j < 2 * m.H := by omega
      exact (wasmLayerChain_row mf m features T s₁ _ _ _ _ _ _ _ t ht j hj').trans
        (wasmLayerChain_row mf m features T s₂ _ _ _ _ _ _ _ t ht j hj').symm)

/-- C9: the WASM engine's visible output (result count and the
(classIndex, score) entries it reports) does not depend on the contents of
the module-level scratch state left by earlier calls: `infer` started from
any two states returns the same count and the same result entries, and in
particular a second invocation from the state the first call left behind
returns exactly the first call's results. -/
theorem c9_wasm_infer_scratch_state_independent (mf : MathFns K) (m : Wasm.Model K)
    (features : ℕ → ℕ → K) (T topK : ℕ) (s₁ s₂ : Wasm.State K) :
    ((Wasm.infer mf m features T topK s₁).1 = (Wasm.infer mf m features T topK s₂).1
      ∧ ∀ i, i < (Wasm.infer mf m features T topK s₁).1 →
          (Wasm.infer mf m features T topK s₁).2.resultIdx i
            = (Wasm.infer mf m features T topK s₂).2.resultIdx i
          ∧ (Wasm.infer mf m features T topK s₁).2.resultScr i
            = (Wasm.infer mf m features T topK s₂).2.resultScr i)
    ∧ ((Wasm.infer mf m features T topK (Wasm.infer mf m features T topK s₁).2).1
        = (Wasm.infer mf m features T topK s₁).1
      ∧ ∀ i, i < (Wasm.infer mf m features T topK s₁).1 →
          (Wasm.infer mf m features T topK
              (Wasm.infer mf m features T topK s₁).2).2.resultIdx i
            = (Wasm.infer mf m features T topK s₁).2.resultIdx i
          ∧ (Wasm.infer mf m features T topK
              (Wasm.infer mf m features T topK s₁).2).2.resultScr i
            = (Wasm.infer mf m features T topK s₁).2.resultScr i) := by
  refine ⟨wasmInferClamped_visible mf m features _ _ s₁ s₂, ?_⟩
  obtain ⟨hc, hr⟩ := wasmInferClamped_visible mf m features
    (if Wasm.MAX_T < T then Wasm.MAX_T else T)
    (if Wasm.MAX_TOP_K < topK then Wasm.MAX_TOP_K else topK)
    s₁ (Wasm.infer mf m features T topK s₁).2
  refine ⟨hc.symm, fun i hi => ?_⟩
  obtain ⟨h1, h2⟩ := hr i hi
  exact ⟨h1.symm, h2.symm⟩

/-! ### Weight parser: success inversion (claim C3) -/

theorem pmBind_ok {α β : Type} (x : Parse.PM α) (f : α → Parse.PM β) (buf : List ℕ)
    (off : ℕ) (b : β) (off₂ : ℕ)
    (h : Parse.PM.bind x f buf off = .ok (b, off₂)) :
    ∃ a mid, x buf off = .ok (a, mid) ∧ f a buf mid = .ok (b, off₂) := by
  unfold Parse.PM.bind at h
  cases hx : x buf off with
  | error e =>
    rw [hx] at h
    exact Except.noConfusion h
  | ok p =>
    obtain ⟨a, mid⟩ := p
    rw [hx] at h
    exact ⟨a, mid, rfl, h⟩

theorem pmPure_ok {α : Type} (a : α) (buf : List ℕ) (off : ℕ) (b : α) (off₂ : ℕ)
    (h : Parse.PM.pure a buf off = .ok (b, off₂)) : b = a ∧ off₂ = off := by
  unfold Parse.PM.pure at h
  simp at h
  exact ⟨h.1.symm, h.2.symm⟩

theorem readF32_ok (buf : List ℕ) (off a off₂ : ℕ)
    (h : Parse.readF32 buf off = .ok (a, off₂)) :
    off₂ = off + 4 ∧ off + 4 ≤ buf.length := by
  unfold Parse.readF32 at h
  by_cases hb : off + 4 ≤ buf.length
  · rw [if_pos hb] at h
    simp at h
    exact ⟨h.2.symm, hb⟩
  · rw [if_neg hb] at h
    exact Except.noConfusion h

theorem readUint8_ok (n : ℕ) (buf : List ℕ) (off : ℕ) (d : List ℕ) (off₂ : ℕ)
    (h : Parse.readUint8 n buf off = .ok (d, off₂)) :
    d = (buf.drop off).take n ∧ off₂ = off + n := by
  unfold Parse.readUint8 at h
  simp at h
  exact ⟨h.1.symm, h.2.symm⟩

theorem readFloat32Array_ok : ∀ (n : ℕ) (buf : List ℕ) (off : ℕ) (a : List ℕ)
    (off₂ : ℕ), Parse.readFloat32Array n buf off = .ok (a, off₂) →
    off₂ = off + 4 * n ∧ a.length = n := by
  intro n
  induction n with
  | zero =>
    intro buf off a off₂ h
    obtain ⟨ha, hoff⟩ := pmPure_ok _ _ _ _ _ h
    subst ha
    exact ⟨by omega, rfl⟩
  | succ m ih =>
    intro buf off a off₂ h
    unfold Parse.readFloat32Array at h
    obtain ⟨x, m1, hx, h⟩ := pmBind_ok _ _ _ _ _ _ h
    obtain ⟨xs, m2, hxs, h⟩ := pmBind_ok _ _ _ _ _ _ h
    obtain ⟨ha, hoff⟩ := pmPure_ok _ _ _ _ _ h
    obtain ⟨e1, hb1⟩ := readF32_ok _ _ _ _ hx
    obtain ⟨e2, hl⟩ := ih _ _ _ _ hxs
    subst ha
    exact ⟨by omega, by simp [hl]⟩

theorem readFloat32Array_demands : ∀ (n : ℕ), 0 < n → ∀ (buf : List ℕ)
    (off : ℕ) (a : List ℕ) (off₂ : ℕ),
    Parse.readFloat32Array n buf off = .ok (a, off₂) → off + 4 * n ≤ buf.length := by
  intro n
  induction n with
  | zero =>
    intro h
    exact absurd h (lt_irrefl 0)
  | succ m ih =>
    intro _ buf off a off₂ h
    unfold Parse.readFloat32Array at h
    obtain ⟨x, m1, hx, h⟩ := pmBind_ok _ _ _ _ _ _ h
    obtain ⟨e1, hb1⟩ := readF32_ok _ _ _ _ hx
    rcases Nat.eq_zero_or_pos m with h0 | hm
    · subst h0
      omega
    · obtain ⟨xs, m2, hxs, h⟩ := pmBind_ok _ _ _ _ _ _ h
      have := ih hm _ _ _ _ hxs
      omega

theorem parseScaledKernels_ok : ∀ (g klen : ℕ) (buf : List ℕ) (off : ℕ)
    (sk : List ℕ × List (List ℕ)) (off₂ : ℕ),
    Parse.parseScaledKernels g klen buf off = .ok (sk, off₂) →
    off₂ = off + g * (4 + klen) ∧ sk.1.length = g ∧ sk.2.length = g
    ∧ (off + g * (4 + klen) ≤ buf.length → ∀ k ∈ sk.2, k.length = klen) := by
  intro g
  induction g with
  | zero =>
    intro klen buf off sk off₂ h
    obtain ⟨hsk, hoff⟩ := pmPure_ok _ _ _ _ _ h
    subst hsk
    exact ⟨by omega, rfl, rfl, by intro _ k hk; exact absurd hk (List.not_mem_nil k)⟩
  | succ m ih =>
    intro klen buf off sk off₂ h
    unfold Parse.parseScaledKernels at h
    obtain ⟨s, m1, hs, h⟩ := pmBind_ok _ _ _ _ _ _ h
    obtain ⟨k, m2, hk, h⟩ := pmBind_ok _ _ _ _ _ _ h
    obtain ⟨skr, m3, hskr, h⟩ := pmBind_ok _ _ _ _ _ _ h
    obtain ⟨hsk, hoff⟩ := pmPure_ok _ _ _ _ _ h
    obtain ⟨e1, hb1⟩ := readF32_ok _ _ _ _ hs
    obtain ⟨hkd, e2⟩ := readUint8_ok _ _ _ _ _ hk
    obtain ⟨e3, hl1, hl2, hwf⟩ := ih klen _ _ _ _ hskr
    subst hsk
    have hexp : off + (m + 1) * (4 + klen) = off + 4 + klen + m * (4 + klen) := by ring
    refine ⟨?_, by simp [hl1], by simp [hl2], ?_⟩
    · omega
    · intro hbound k' hk'
      rw [hexp] at hbound
      rcases List.mem_cons.mp hk' with rfl | hmem
      · subst hkd
        simp [List.length_take, List.length_drop]
        omega
      · exact hwf (by omega) k' hmem

theorem parseBiasList_ok : ∀ (g H : ℕ) (buf : List ℕ) (off : ℕ)
    (bs : List (List ℕ)) (off₂ : ℕ),
    Parse.parseBiasList g H buf off = .ok (bs, off₂) →
    off₂ = off + g * (4 * H) ∧ bs.length = g ∧ ∀ b ∈ bs, b.length = H := by
  intro g
  induction g with
  | zero =>
    intro H buf off bs off₂ h
    obtain ⟨hbs, hoff⟩ := pmPure_ok _ _ _ _ _ h
    subst hbs
    exact ⟨by omega, rfl, by intro b hb; exact absurd hb (List.not_mem_nil b)⟩
  | succ m ih =>
    intro H buf off bs off₂ h
    unfold Parse.parseBiasList at h
    obtain ⟨b, m1, hb, h⟩ := pmBind_ok _ _ _ _ _ _ h
    obtain ⟨rest, m2, hrest, h⟩ := pmBind_ok _ _ _ _ _ _ h
    obtain ⟨hbs, hoff⟩ := pmPure_ok _ _ _ _ _ h
    obtain ⟨e1, hl⟩ := readFloat32Array_ok _ _ _ _ _ hb
    obtain ⟨e2, hl2, hwf⟩ := ih H _ _ _ _ hrest
    subst hbs
    have hexp : off + (m + 1) * (4 * H) = off + 4 * H + m * (4 * H) := by ring
    refine ⟨by omega, by simp [hl2], ?_⟩
    intro b' hb'
    rcases List.mem_cons.mp hb' with rfl | hmem
    · exact hl
    · exact hwf b' hmem

theorem parseDirection_ok (H inputSize : ℕ) (buf : List ℕ) (off : ℕ)
    (d : Parse.LSTMDirectionWeights) (off₂ : ℕ)
    (h : Parse.parseDirection H inputSize buf off = .ok (d, off₂)) :
    off₂ = off + Parse.dirBytes H inputSize
    ∧ (off + Parse.dirBytes H inputSize ≤ buf.length →
        Parse.DirWellSized H inputSize d) := by
  unfold Parse.parseDirection at h
  obtain ⟨ik, m1, hik, h⟩ := pmBind_ok _ _ _ _ _ _ h
  obtain ⟨rk, m2, hrk, h⟩ := pmBind_ok _ _ _ _ _ _ h
  obtain ⟨bs, m3, hbs, h⟩ := pmBind_ok _ _ _ _ _ _ h
  obtain ⟨hd, hoff⟩ := pmPure_ok _ _ _ _ _ h
  obtain ⟨e1, l1, l2, w1⟩ := parseScaledKernels_ok 4 _ _ _ _ _ hik
  obtain ⟨e2, l3, l4, w2⟩ := parseScaledKernels_ok 4 _ _ _ _ _ hrk
  obtain ⟨e3, l5, w3⟩ := parseBiasList_ok 4 _ _ _ _ _ hbs
  subst hd
  have hdb : Parse.dirBytes H inputSize
      = 4 * (4 + H * inputSize) + 4 * (4 + H * H) + 4 * (4 * H) := rfl
  constructor
  · omega
  · intro hb
    exact ⟨l2, l1, l4, l3, l5, w1 (by omega), w2 (by omega), w3⟩

theorem parseLayer_ok (H inputSize : ℕ) (buf : List ℕ) (off : ℕ)
    (lay : Parse.BiLSTMLayerWeights) (off₂ : ℕ)
    (h : Parse.parseLayer H inputSize buf off = .ok (lay, off₂)) :
    off₂ = off + Parse.layerBytes H inputSize
    ∧ lay.inputSize = inputSize
    ∧ (off + Parse.layerBytes H inputSize ≤ buf.length →
        Parse.DirWellSized H inputSize lay.forward
        ∧ Parse.DirWellSized H inputSize lay.backward) := by
  unfold Parse.parseLayer at h
  obtain ⟨d0, m1, hd0, h⟩ := pmBind_ok _ _ _ _ _ _ h
  obtain ⟨d1, m2, hd1, h⟩ := pmBind_ok _ _ _ _ _ _ h
  obtain ⟨hl, hoff⟩ := pmPure_ok _ _ _ _ _ h
  obtain ⟨e1, w1⟩ := parseDirection_ok _ _ _ _ _ _ hd0
  obtain ⟨e2, w2⟩ := parseDirection_ok _ _ _ _ _ _ hd1
  subst hl
  have hlb : Parse.layerBytes H inputSize = 2 * Parse.dirBytes H inputSize := rfl
  refine ⟨by omega, rfl, ?_⟩
  intro hb
  exact ⟨w1 (by omega), w2 (by omega)⟩

theorem parseLayersGo_ok : ∀ (n l H nf : ℕ) (buf : List ℕ) (off : ℕ)
    (lays : List Parse.BiLSTMLayerWeights) (off₂ : ℕ),
    Parse.parseLayersGo H nf l n buf off = .ok (lays, off₂) →
    off₂ = off + Parse.layersBytesGo H nf l n ∧ lays.length = n
    ∧ (off + Parse.layersBytesGo H nf l n ≤ buf.length →
        Parse.LayersWellSized H nf l lays) := by
  intro n
  induction n with
  | zero =>
    intro l H nf buf off lays off₂ h
    obtain ⟨hl, hoff⟩ := pmPure_ok _ _ _ _ _ h
    subst hl
    exact ⟨by simp [Parse.layersBytesGo, hoff], rfl, fun _ => trivial⟩
  | succ m ih =>
    intro l H nf buf off lays off₂ h
    unfold Parse.parseLayersGo at h
    obtain ⟨lay, m1, hlay, h⟩ := pmBind_ok _ _ _ _ _ _ h
    obtain ⟨rest, m2, hrest, h⟩ := pmBind_ok _ _ _ _ _ _ h
    obtain ⟨hl, hoff⟩ := pmPure_ok _ _ _ _ _ h
    obtain ⟨e1, hsz, w1⟩ := parseLayer_ok _ _ _ _ _ _ hlay
    obtain ⟨e2, hlen, w2⟩ := ih _ _ _ _ _ _ _ hrest
    subst hl
    have hlb : Parse.layersBytesGo H nf l (m + 1)
        = Parse.layerBytes H (if l = 0 then nf else H * 2)
          + Parse.layersBytesGo H nf (l + 1) m := rfl
    refine ⟨by omega, by simp [hlen], ?_⟩
    intro hb
    have hws : Parse.LayersWellSized H nf l (lay :: rest)
        = (lay.inputSize = (if l = 0 then nf else H * 2)
          ∧ Parse.DirWellSized H (if l = 0 then nf else H * 2) lay.forward
          ∧ Parse.DirWellSized H (if l = 0 then nf else H * 2) lay.backward
          ∧ Parse.LayersWellSized H nf (l + 1) rest) := rfl
  /- the `= True` shape of the base case makes the propositional unfold a `rfl` -/
    rw [hws]
    obtain ⟨wf, wb⟩ := w1 (by omega)
    exact ⟨hsz, wf, wb, w2 (by omega)⟩

theorem parseWeights_ok (nl H nc nf : ℕ) (buf : List ℕ) (off : ℕ)
    (m : Parse.ModelWeights) (off₂ : ℕ)
    (h : Parse.parseWeights nl H nc nf buf off = .ok (m, off₂)) :
    off₂ = off + Parse.totalBytes nl H nc nf
    ∧ off + Parse.totalBytes nl H nc nf ≤ buf.length
    ∧ Parse.ModelWellSized nl H nc nf m := by
  unfold Parse.parseWeights at h
  obtain ⟨layers, m1, hlay, h⟩ := pmBind_ok _ _ _ _ _ _ h
  obtain ⟨fcScale, m2, hsc, h⟩ := pmBind_ok _ _ _ _ _ _ h
  obtain ⟨fcW, m3, hw, h⟩ := pmBind_ok _ _ _ _ _ _ h
  obtain ⟨fcB, m4, hbias, h⟩ := pmBind_ok _ _ _ _ _ _ h
  obtain ⟨hm, hoff⟩ := pmPure_ok _ _ _ _ _ h
  obtain ⟨e1, hlen, w1⟩ := parseLayersGo_ok _ _ _ _ _ _ _ _ hlay
  obtain ⟨e2, hb2⟩ := readF32_ok _ _ _ _ hsc
  obtain ⟨hwd, e3⟩ := readUint8_ok _ _ _ _ _ hw
  obtain ⟨e4, hbl⟩ := readFloat32Array_ok _ _ _ _ _ hbias
  subst hm
  have htb : Parse.totalBytes nl H nc nf
      = Parse.layersBytesGo H nf 0 nl + 4 + nc * H * 2 + 4 * nc := rfl
  have hdemand : off + Parse.totalBytes nl H nc nf ≤ buf.length := by
    rcases Nat.eq_zero_or_pos nc with h0 | hpos
    · subst h0
      simp only [Nat.zero_mul, Nat.mul_zero] at htb ⊢
      omega
    · have := readFloat32Array_demands nc hpos _ _ _ _ hbias
      omega
  refine ⟨by omega, hdemand, ?_⟩
  refine ⟨hlen, w1 (by omega), ?_, hbl⟩
  subst hwd
  simp [List.length_take, List.length_drop]
  omega

/-- C3: a weight buffer shorter than the total byte length implied by the
header (`numLayers`, `hiddenSize`, `numClasses`, `numFeatures` under the
fixed sequential layout) makes `parseWeights` raise a parse error, and a
successful parse consumes exactly that many bytes out of a buffer at least
that long, returning kernels, scales and biases of full size — never
silently truncated. -/
theorem c3_parseWeights_rejects_short_buffers (numLayers H numClasses numFeatures : ℕ)
    (buf : List ℕ) :
    (buf.length < Parse.totalBytes numLayers H numClasses numFeatures →
      ∃ e, Parse.parseWeights numLayers H numClasses numFeatures buf 0 = .error e)
    ∧ (∀ m off₂,
        Parse.parseWeights numLayers H numClasses numFeatures buf 0 = .ok (m, off₂) →
        off₂ = Parse.totalBytes numLayers H numClasses numFeatures
        ∧ Parse.totalBytes numLayers H numClasses numFeatures ≤ buf.length
        ∧ Parse.ModelWellSized numLayers H numClasses numFeatures m) := by
  constructor
  · intro hshort
    cases hp : Parse.parseWeights numLayers H numClasses numFeatures buf 0 with
    | error e => exact ⟨e, rfl⟩
    | ok p =>
      obtain ⟨m, off₂⟩ := p
      obtain ⟨-, hb, -⟩ := parseWeights_ok _ _ _ _ _ _ _ _ hp
      omega
  · intro m off₂ hp
    obtain ⟨ho, hb, hw⟩ := parseWeights_ok _ _ _ _ _ _ _ _ hp
    exact ⟨by omega, by omega, hw⟩

/-! ### Weight layout round-trip (claim C4) -/

theorem getD_middle (pre mid suf : List ℕ) (i : ℕ) (hi : i < mid.length) :
    (pre ++ mid ++ suf).getD (pre.length + i) 0 = mid.getD i 0 := by
  rw [List.getD_append _ _ _ _ (by simp [List.length_append]; omega)]
  rw [List.getD_append_right _ _ _ _ (by omega)]
  congr 1
  omega

theorem runsTo_congr {α : Type} {p : Parse.PM α} {b b' : List ℕ} {a : α}
    (h : Parse.RunsTo p b a) (e : b = b') : Parse.RunsTo p b' a := e ▸ h

theorem runsTo_pure {α : Type} (a : α) : Parse.RunsTo (Parse.PM.pure a) [] a := by
  intro pre suf
  simp [Parse.PM.pure]

theorem runsTo_bind {α β : Type} {p : Parse.PM α} {f : α → Parse.PM β}
    {b₁ b₂ : List ℕ} {a : α} {b : β}
    (h₁ : Parse.RunsTo p b₁ a) (h₂ : Parse.RunsTo (f a) b₂ b) :
    Parse.RunsTo (Parse.PM.bind p f) (b₁ ++ b₂) b := by
  intro pre suf
  have e : pre ++ (b₁ ++ b₂) ++ suf = pre ++ b₁ ++ (b₂ ++ suf) := by simp
  unfold Parse.PM.bind
  rw [e, h₁ pre (b₂ ++ suf)]
  show f a (pre ++ b₁ ++ (b₂ ++ suf)) (pre.length + b₁.length)
    = .ok (b, pre.length + (b₁ ++ b₂).length)
  have h₂' := h₂ (pre ++ b₁) suf
  rw [List.append_assoc, List.length_append] at h₂'
  rw [h₂', List.length_append, Nat.add_assoc]

theorem readF32_runs (w : ℕ) (hw : w < 4294967296) :
    Parse.RunsTo Parse.readF32 (Parse.enc32 w) w := by
  intro pre suf
  unfold Parse.readF32
  have vl : (Parse.enc32 w).length = 4 := rfl
  rw [if_pos (by simp [List.length_append, vl])]
  have g0 := getD_middle pre (Parse.enc32 w) suf 0 (by omega)
  have g1 := getD_middle pre (Parse.enc32 w) suf 1 (by omega)
  have g2 := getD_middle pre (Parse.enc32 w) suf 2 (by omega)
  have g3 := getD_middle pre (Parse.enc32 w) suf 3 (by omega)
  rw [Nat.add_zero] at g0
  rw [g0, g1, g2, g3]
  have v0 : (Parse.enc32 w).getD 0 0 = w % 256 := rfl
  have v1 : (Parse.enc32 w).getD 1 0 = w / 256 % 256 := rfl
  have v2 : (Parse.enc32 w).getD 2 0 = w / 65536 % 256 := rfl
  have v3 : (Parse.enc32 w).getD 3 0 = w / 16777216 % 256 := rfl
  rw [v0, v1, v2, v3, vl]
  have hv : w % 256 + 256 * (w / 256 % 256) + 65536 * (w / 65536 % 256)
      + 16777216 * (w / 16777216 % 256) = w := by omega
  rw [hv]

theorem readUint8_runs (k : List ℕ) : Parse.RunsTo (Parse.readUint8 k.length) k k := by
  intro pre suf
  unfold Parse.readUint8
  rw [List.append_assoc, List.drop_left, List.take_left]

theorem serF32List_runs : ∀ (ws : List ℕ), (∀ w ∈ ws, w < 4294967296) →
    Parse.RunsTo (Parse.readFloat32Array ws.length) (Parse.serF32List ws) ws := by
  intro ws
  induction ws with
  | nil =>
    intro _ pre suf
    simp [Parse.readFloat32Array, Parse.PM.pure, Parse.serF32List]
  | cons w ws ih =>
    intro hb
    have h1 := readF32_runs w (hb w (by simp))
    have h2 := ih (fun x hx => hb x (by simp [hx]))
    refine runsTo_congr (runsTo_bind h1 (runsTo_bind h2 (runsTo_pure (w :: ws)))) ?_
    simp [Parse.serF32List]

theorem parseScaledKernels_runs : ∀ (ss : List ℕ) (ks : List (List ℕ)) (klen : ℕ),
    ss.length = ks.length →
    (∀ s ∈ ss, s < 4294967296) → (∀ k ∈ ks, k.length = klen) →
    Parse.RunsTo (Parse.parseScaledKernels ss.length klen)
      (Parse.serScaledKernels ss ks) (ss, ks) := by
  intro ss
  induction ss with
  | nil =>
    intro ks klen hl _ _
    have hks : ks = [] := List.length_eq_zero.mp hl.symm
    subst hks
    intro pre suf
    simp [Parse.parseScaledKernels, Parse.serScaledKernels, Parse.PM.pure]
  | cons s ss ih =>
    intro ks klen hl hs hk
    cases ks with
    | nil => simp at hl
    | cons k ks' =>
      have h1 := readF32_runs s (hs s (by simp))
      have h2 : Parse.RunsTo (Parse.readUint8 klen) k k := by
        have hkl : k.length = klen := hk k (by simp)
        have h := readUint8_runs k
        rwa [hkl] at h
      have h3 := ih ks' klen (by simpa using hl) (fun x hx => hs x (by simp [hx]))
        (fun x hx => hk x (by simp [hx]))
      refine runsTo_congr
        (runsTo_bind h1 (runsTo_bind h2 (runsTo_bind h3 (runsTo_pure (s :: ss, k :: ks'))))) ?_
      simp [Parse.serScaledKernels]

theorem parseBiasList_runs : ∀ (bs : List (List ℕ)) (H : ℕ),
    (∀ b ∈ bs, b.length = H) → (∀ b ∈ bs, ∀ w ∈ b, w < 4294967296) →
    Parse.RunsTo (Parse.parseBiasList bs.length H) (Parse.serBiases bs) bs := by
  intro bs
  induction bs with
  | nil =>
    intro H _ _ pre suf
    simp [Parse.parseBiasList, Parse.serBiases, Parse.PM.pure]
  | cons b bs ih =>
    intro H hlen hw
    have h1 : Parse.RunsTo (Parse.readFloat32Array H) (Parse.serF32List b) b := by
      have h := serF32List_runs b (hw b (by simp))
      rwa [hlen b (by simp)] at h
    have h2 := ih H (fun x hx => hlen x (by simp [hx])) (fun x hx => hw x (by simp [hx]))
    refine runsTo_congr (runsTo_bind h1 (runsTo_bind h2 (runsTo_pure (b :: bs)))) ?_
    simp [Parse.serBiases]

theorem parseDirection_runs (H inputSize : ℕ) (d : Parse.LSTMDirectionWeights)
    (hwf : Parse.DirWellSized H inputSize d) (hbd : Parse.DirValuesBounded d) :
    Parse.RunsTo (Parse.parseDirection H inputSize) (Parse.serDirection d) d := by
  obtain ⟨c1, c2, c3, c4, c5, k1, k2, k3⟩ := hwf
  obtain ⟨v1, v2, v3⟩ := hbd
  have h1 := parseScaledKernels_runs d.inputScales d.inputKernels (H * inputSize)
    (by omega) v1 k1
  have h2 := parseScaledKernels_runs d.recScales d.recKernels (H * H)
    (by omega) v2 k2
  have h3 := parseBiasList_runs d.biases H k3 v3
  rw [c2] at h1
  rw [c4] at h2
  rw [c5] at h3
  refine runsTo_congr (runsTo_bind h1 (runsTo_bind h2 (runsTo_bind h3 (runsTo_pure d)))) ?_
  simp [Parse.serDirection]

theorem parseLayer_runs (H nf l : ℕ) (lay : Parse.BiLSTMLayerWeights)
    (hsz : lay.inputSize = (if l = 0 then nf else H * 2))
    (hwf : Parse.DirWellSized H (if l = 0 then nf else H * 2) lay.forward
      ∧ Parse.DirWellSized H (if l = 0 then nf else H * 2) lay.backward)
    (hbd : Parse.DirValuesBounded lay.forward ∧ Parse.DirValuesBounded lay.backward) :
    Parse.RunsTo (Parse.parseLayer H (if l = 0 then nf else H * 2))
      (Parse.serLayer lay) lay := by
  obtain ⟨fwd, bwd, isz⟩ := lay
  simp only at hsz hwf hbd
  subst hsz
  have h1 := parseDirection_runs H (if l = 0 then nf else H * 2) fwd hwf.1 hbd.1
  have h2 := parseDirection_runs H (if l = 0 then nf else H * 2) bwd hwf.2 hbd.2
  refine runsTo_congr (runsTo_bind h1 (runsTo_bind h2
    (runsTo_pure (⟨fwd, bwd, if l = 0 then nf else H * 2⟩ : Parse.BiLSTMLayerWeights)))) ?_
  simp [Parse.serLayer]

theorem parseLayersGo_runs : ∀ (lays : List Parse.BiLSTMLayerWeights) (H nf l : ℕ),
    Parse.LayersWellSized H nf l lays →
    (∀ lay ∈ lays,
      Parse.DirValuesBounded lay.forward ∧ Parse.DirValuesBounded lay.backward) →
    Parse.RunsTo (Parse.parseLayersGo H nf l lays.length) (Parse.serLayers lays) lays := by
  intro lays
  induction lays with
  | nil =>
    intro H nf l _ _ pre suf
    simp [Parse.parseLayersGo, Parse.serLayers, Parse.PM.pure]
  | cons lay rest ih =>
    intro H nf l hwf hbd
    obtain ⟨hsz, hf, hbk, hrest⟩ := hwf
    have h1 := parseLayer_runs H nf l lay hsz ⟨hf, hbk⟩ (hbd lay (by simp))
    have h2 := ih H nf (l + 1) hrest (fun x hx => hbd x (by simp [hx]))
    refine runsTo_congr (runsTo_bind h1 (runsTo_bind h2 (runsTo_pure (lay :: rest)))) ?_
    simp [Parse.serLayers]

/-- C4: serializing header-shaped weights in the fixed sequential layout of
§4.3 (per layer, per direction: four little-endian float32 scales each
followed by the gate's kernel bytes, then the recurrent scales and kernels,
then four runs of `H` float32 biases; finally the FC scale, the FC kernel
bytes and the FC float32 biases) and parsing the buffer with `parseWeights`
returns exactly the kernels, scales and biases used to construct it,
consuming the full layout length. -/
theorem c4_parseWeights_roundtrip (numLayers H numClasses numFeatures : ℕ)
    (m : Parse.ModelWeights)
    (hwf : Parse.ModelWellSized numLayers H numClasses numFeatures m)
    (hbd : Parse.ModelValuesBounded m) :
    Parse.parseWeights numLayers H numClasses numFeatures (Parse.serializeWeights m) 0
      = .ok (m, Parse.totalBytes numLayers H numClasses numFeatures) := by
  obtain ⟨hnl, hlw, hfw, hfb⟩ := hwf
  obtain ⟨hdirs, hsc, hbw⟩ := hbd
  have h1 := parseLayersGo_runs m.layers H numFeatures 0 hlw hdirs
  rw [hnl] at h1
  have h2 := readF32_runs m.fc.scale hsc
  have h3 : Parse.RunsTo (Parse.readUint8 (numClasses * H * 2)) m.fc.weights
      m.fc.weights := by
    have h := readUint8_runs m.fc.weights
    rwa [hfw] at h
  have h4 : Parse.RunsTo (Parse.readFloat32Array numClasses)
      (Parse.serF32List m.fc.biases) m.fc.biases := by
    have h := serF32List_runs m.fc.biases hbw
    rwa [hfb] at h
  have h5 : Parse.RunsTo (Parse.parseWeights numLayers H numClasses numFeatures)
      (Parse.serializeWeights m) m := by
    refine runsTo_congr
      (runsTo_bind h1 (runsTo_bind h2 (runsTo_bind h3 (runsTo_bind h4 (runsTo_pure m))))) ?_
    simp [Parse.serializeWeights]
  have h6 := h5 [] []
  simp only [List.nil_append, List.append_nil, List.length_nil, Nat.zero_add] at h6
  obtain ⟨ho, -, -⟩ := parseWeights_ok _ _ _ _ _ _ _ _ h6
  rw [ho] at h6
  simpa using h6

theorem c4_parseWeights_roundtrip_witness :
    Parse.ModelWellSized 1 1 1 1 Parse.mw0
    ∧ Parse.ModelValuesBounded Parse.mw0
    ∧ Parse.parseWeights 1 1 1 1 (Parse.serializeWeights Parse.mw0) 0
        = .ok (Parse.mw0, Parse.totalBytes 1 1 1 1) := by
  have hwf : Parse.ModelWellSized 1 1 1 1 Parse.mw0 := by
    simp only [Parse.ModelWellSized, Parse.LayersWellSized, Parse.DirWellSized,
      Parse.mw0, Parse.dir0]
    decide
  have hbd : Parse.ModelValuesBounded Parse.mw0 := by
    simp only [Parse.ModelValuesBounded, Parse.DirValuesBounded, Parse.mw0, Parse.dir0]
    decide
  exact ⟨hwf, hbd, c4_parseWeights_roundtrip 1 1 1 1 Parse.mw0 hwf hbd⟩

/-! ### Preprocessing: pen-up bridge features (claim C6) -/

theorem bezierFeatures_zero (mf : MathFns K) (seg : Fit.BezierCurve K) (penDown : Bool)
    (scale : K) (tf : Option (K × K × K)) :
    (bezierFeatures mf seg penDown scale tf).getD 0 0 = (if penDown then 1 else 0) := rfl

theorem bezierFeatures_one (mf : MathFns K) (seg : Fit.BezierCurve K) (penDown : Bool)
    (scale : K) (tf : Option (K × K × K)) :
    (bezierFeatures mf seg penDown scale tf).getD 1 0 = (seg.p3.1 - seg.p0.1) / scale := rfl

theorem bezierFeatures_two (mf : MathFns K) (seg : Fit.BezierCurve K) (penDown : Bool)
    (scale : K) (tf : Option (K × K × K)) :
    (bezierFeatures mf seg penDown scale tf).getD 2 0 = (seg.p3.2 - seg.p0.2) / scale := rfl

theorem bezierFeatures_four (mf : MathFns K) (seg : Fit.BezierCurve K) (penDown : Bool)
    (scale : K) (tf : Option (K × K × K)) :
    (bezierFeatures mf seg penDown scale tf).getD 4 0
      = (if 0 < mf.sqrt ((seg.p3.1 - seg.p0.1) * (seg.p3.1 - seg.p0.1)
            + (seg.p3.2 - seg.p0.2) * (seg.p3.2 - seg.p0.2))
         then mf.sqrt ((seg.p1.1 - seg.p0.1) * (seg.p1.1 - seg.p0.1)
              + (seg.p1.2 - seg.p0.2) * (seg.p1.2 - seg.p0.2))
            / mf.sqrt ((seg.p3.1 - seg.p0.1) * (seg.p3.1 - seg.p0.1)
              + (seg.p3.2 - seg.p0.2) * (seg.p3.2 - seg.p0.2))
         else 0) := rfl

theorem bezierFeatures_six (mf : MathFns K) (seg : Fit.BezierCurve K) (penDown : Bool)
    (scale : K) (tf : Option (K × K × K)) :
    (bezierFeatures mf seg penDown scale tf).getD 6 0
      = (if 0 < mf.sqrt ((seg.p3.1 - seg.p0.1) * (seg.p3.1 - seg.p0.1)
            + (seg.p3.2 - seg.p0.2) * (seg.p3.2 - seg.p0.2))
         then mf.sqrt ((seg.p2.1 - seg.p3.1) * (seg.p2.1 - seg.p3.1)
              + (seg.p2.2 - seg.p3.2) * (seg.p2.2 - seg.p3.2))
            / mf.sqrt ((seg.p3.1 - seg.p0.1) * (seg.p3.1 - seg.p0.1)
              + (seg.p3.2 - seg.p0.2) * (seg.p3.2 - seg.p0.2))
         else 0) := rfl

theorem thirds_ratio (sq : K → K) (hsq : ∀ x : K, 0 ≤ x → sq x * sq x = x)
    (hnn : ∀ x : K, 0 ≤ x → 0 ≤ sq x) (dx dy : K)
    (hpos : 0 < sq (dx * dx + dy * dy)) :
    sq (dx / 3 * (dx / 3) + dy / 3 * (dy / 3)) / sq (dx * dx + dy * dy) = 1 / 3 := by
  have hq : (0 : K) ≤ dx * dx + dy * dy := by
    linarith [mul_self_nonneg dx, mul_self_nonneg dy]
  have hq9 : (0 : K) ≤ dx / 3 * (dx / 3) + dy / 3 * (dy / 3) := by
    linarith [mul_self_nonneg (dx / 3), mul_self_nonneg (dy / 3)]
  have hc2 : sq (dx * dx + dy * dy) * sq (dx * dx + dy * dy) = dx * dx + dy * dy :=
    hsq _ hq
  have ha2 : sq (dx / 3 * (dx / 3) + dy / 3 * (dy / 3))
      * sq (dx / 3 * (dx / 3) + dy / 3 * (dy / 3))
      = dx / 3 * (dx / 3) + dy / 3 * (dy / 3) := hsq _ hq9
  have hann : 0 ≤ sq (dx / 3 * (dx / 3) + dy / 3 * (dy / 3)) := hnn _ hq9
  have hf : (3 * sq (dx / 3 * (dx / 3) + dy / 3 * (dy / 3)) - sq (dx * dx + dy * dy))
      * (3 * sq (dx / 3 * (dx / 3) + dy / 3 * (dy / 3)) + sq (dx * dx + dy * dy))
      = 0 := by
    linear_combination 9 * ha2 - hc2
  rcases mul_eq_zero.mp hf with h | h
  · have h3a : 3 * sq (dx / 3 * (dx / 3) + dy / 3 * (dy / 3))
        = sq (dx * dx + dy * dy) := by linarith
    have hapos : 0 < sq (dx / 3 * (dx / 3) + dy / 3 * (dy / 3)) := by linarith
    have ha0 : sq (dx / 3 * (dx / 3) + dy / 3 * (dy / 3)) ≠ 0 := ne_of_gt hapos
    rw [← h3a]
    rw [div_eq_iff (by linarith)]
    ring
  · linarith

theorem bridge_f4_f6 (mf : MathFns K) (scale : K) (a b : K × K)
    (hsq : ∀ x : K, 0 ≤ x → mf.sqrt x * mf.sqrt x = x)
    (hnn : ∀ x : K, 0 ≤ x → 0 ≤ mf.sqrt x) :
    (((bezierFeatures mf
        ⟨a, (a.1 + (b.1 - a.1) / 3, a.2 + (b.2 - a.2) / 3),
         (b.1 - (b.1 - a.1) / 3, b.2 - (b.2 - a.2) / 3), b⟩ false scale none).getD 4 0
          = 1 / 3
      ∧ (bezierFeatures mf
        ⟨a, (a.1 + (b.1 - a.1) / 3, a.2 + (b.2 - a.2) / 3),
         (b.1 - (b.1 - a.1) / 3, b.2 - (b.2 - a.2) / 3), b⟩ false scale none).getD 6 0
          = 1 / 3)
    ∨ ((bezierFeatures mf
        ⟨a, (a.1 + (b.1 - a.1) / 3, a.2 + (b.2 - a.2) / 3),
         (b.1 - (b.1 - a.1) / 3, b.2 - (b.2 - a.2) / 3), b⟩ false scale none).getD 1 0 = 0
      ∧ (bezierFeatures mf
        ⟨a, (a.1 + (b.1 - a.1) / 3, a.2 + (b.2 - a.2) / 3),
         (b.1 - (b.1 - a.1) / 3, b.2 - (b.2 - a.2) / 3), b⟩ false scale none).getD 2 0 = 0
      ∧ (bezierFeatures mf
        ⟨a, (a.1 + (b.1 - a.1) / 3, a.2 + (b.2 - a.2) / 3),
         (b.1 - (b.1 - a.1) / 3, b.2 - (b.2 - a.2) / 3), b⟩ false scale none).getD 4 0 = 0
      ∧ (bezierFeatures mf
        ⟨a, (a.1 + (b.1 - a.1) / 3, a.2 + (b.2 - a.2) / 3),
         (b.1 - (b.1 - a.1) / 3, b.2 - (b.2 - a.2) / 3), b⟩ false scale none).getD 6 0
          = 0)) := by
  rw [bezierFeatures_one, bezierFeatures_two, bezierFeatures_four, bezierFeatures_six]
  simp only
  rw [show a.1 + (b.1 - a.1) / 3 - a.1 = (b.1 - a.1) / 3 from by ring,
    show a.2 + (b.2 - a.2) / 3 - a.2 = (b.2 - a.2) / 3 from by ring,
    show b.1 - (b.1 - a.1) / 3 - b.1 = -((b.1 - a.1) / 3) from by ring,
    show b.2 - (b.2 - a.2) / 3 - b.2 = -((b.2 - a.2) / 3) from by ring,
    show -((b.1 - a.1) / 3) * -((b.1 - a.1) / 3) = (b.1 - a.1) / 3 * ((b.1 - a.1) / 3)
      from by ring,
    show -((b.2 - a.2) / 3) * -((b.2 - a.2) / 3) = (b.2 - a.2) / 3 * ((b.2 - a.2) / 3)
      from by ring]
  by_cases hpos : 0 < mf.sqrt ((b.1 - a.1) * (b.1 - a.1) + (b.2 - a.2) * (b.2 - a.2))
  · left
    rw [if_pos hpos]
    exact ⟨thirds_ratio mf.sqrt hsq hnn _ _ hpos, thirds_ratio mf.sqrt hsq hnn _ _ hpos⟩
  · right
    have hq : (0 : K) ≤ (b.1 - a.1) * (b.1 - a.1) + (b.2 - a.2) * (b.2 - a.2) := by
      linarith [mul_self_nonneg (b.1 - a.1), mul_self_nonneg (b.2 - a.2)]
    have hc0 : mf.sqrt ((b.1 - a.1) * (b.1 - a.1) + (b.2 - a.2) * (b.2 - a.2)) = 0 :=
      le_antisymm (not_lt.mp hpos) (hnn _ hq)
    have hqq : (b.1 - a.1) * (b.1 - a.1) + (b.2 - a.2) * (b.2 - a.2) = 0 := by
      have := hsq _ hq
      rw [hc0] at this
      linarith
    have hdx : b.1 - a.1 = 0 := by
      have h1 : (b.1 - a.1) * (b.1 - a.1) = 0 := by
        nlinarith [mul_self_nonneg (b.1 - a.1), mul_self_nonneg (b.2 - a.2)]
      exact mul_self_eq_zero.mp h1
    have hdy : b.2 - a.2 = 0 := by
      have h1 : (b.2 - a.2) * (b.2 - a.2) = 0 := by
        nlinarith [mul_self_nonneg (b.1 - a.1), mul_self_nonneg (b.2 - a.2)]
      exact mul_self_eq_zero.mp h1
    rw [if_neg hpos, hdx, hdy]
    simp

theorem preprocessGo_eq_join (mf : MathFns K)
    (fitter : List (K × K) → List (Fit.BezierCurve K))
    (timeF : List (K × K × K) → Fit.BezierCurve K → Option (K × K × K))
    (scale : K) (normalized : List (List (K × K × K))) :
    ∀ (n : ℕ) (acc : List (List K)) (idx : ℕ),
    preprocessGo mf fitter timeF scale normalized acc idx n
      = acc ++ ((List.range n).map
          (fun j => strokeRows mf fitter timeF scale normalized (idx + j))).flatten := by
  intro n
  induction n with
  | zero =>
    intro acc idx
    simp [preprocessGo]
  | succ m ih =>
    intro acc idx
    have hstep : preprocessGo mf fitter timeF scale normalized acc idx (m + 1)
        = preprocessGo mf fitter timeF scale normalized
          (acc ++ strokeRows mf fitter timeF scale normalized idx) (idx + 1) m := rfl
    rw [hstep, ih, List.append_assoc]
    have hfun : ((fun j => strokeRows mf fitter timeF scale normalized (idx + j))
          ∘ Nat.succ)
        = fun j => strokeRows mf fitter timeF scale normalized (idx + 1 + j) := by
      funext j
      show strokeRows mf fitter timeF scale normalized (idx + (j + 1)) = _
      congr 1
      omega
    rw [List.range_succ_eq_map, List.map_cons, List.flatten_cons, List.map_map, hfun]
    rfl

theorem preprocessStrokes_eq_join (mf : MathFns K)
    (fitter : List (K × K) → List (Fit.BezierCurve K))
    (timeF : List (K × K × K) → Fit.BezierCurve K → Option (K × K × K))
    (strokes : List (List (K × K × K))) (scale : K) :
    preprocessStrokes mf fitter timeF strokes scale
      = ((List.range (normalizeStrokes strokes scale).length).map
          (fun j => strokeRows mf fitter timeF scale
            (normalizeStrokes strokes scale) j)).flatten := by
  show preprocessGo mf fitter timeF scale (normalizeStrokes strokes scale) [] 0
      (normalizeStrokes strokes scale).length = _
  rw [preprocessGo_eq_join]
  simp

/-- C6 (amended): the spec's 1/3 property of pen-up bridge rows holds
whenever the bridging chord is non-degenerate, but a bridge between
coincident points (the previous stroke ends exactly where the next one
starts) has `f4 = f6 = 0`, not 1/3: the ratio computation is guarded by
`chordLen > 0` and leaves the features at zero.  Pen-up rows are the rows
with `f0 = 0`; `sqrt` is any function behaving as a square root on
nonnegative inputs. -/
theorem c6_penup_ratio_amended (mf : MathFns K)
    (fitter : List (K × K) → List (Fit.BezierCurve K))
    (timeF : List (K × K × K) → Fit.BezierCurve K → Option (K × K × K))
    (strokes : List (List (K × K × K))) (scale : K)
    (hsq : ∀ x : K, 0 ≤ x → mf.sqrt x * mf.sqrt x = x)
    (hnn : ∀ x : K, 0 ≤ x → 0 ≤ mf.sqrt x) :
    ∀ r ∈ preprocessStrokes mf fitter timeF strokes scale,
      r.getD 0 0 = 0 →
      (r.getD 4 0 = 1 / 3 ∧ r.getD 6 0 = 1 / 3)
      ∨ (r.getD 1 0 = 0 ∧ r.getD 2 0 = 0 ∧ r.getD 4 0 = 0 ∧ r.getD 6 0 = 0) := by
  intro r hr h0
  rw [preprocessStrokes_eq_join, List.mem_flatten] at hr
  obtain ⟨l, hl, hrl⟩ := hr
  rw [List.mem_map] at hl
  obtain ⟨j, -, rfl⟩ := hl
  simp only [strokeRows] at hrl
  split at hrl
  · exact absurd hrl (List.not_mem_nil r)
  · rw [List.mem_append] at hrl
    rcases hrl with hbr | hseg
    · split at hbr
      · rw [List.mem_singleton] at hbr
        subst hbr
        simp only [penUpRow]
        exact bridge_f4_f6 mf scale _ _ hsq hnn
      · exact absurd hbr (List.not_mem_nil r)
    · rw [List.mem_map] at hseg
      obtain ⟨seg, -, rfl⟩ := hseg
      rw [bezierFeatures_zero] at h0
      simp at h0

/-- Counterexample to C6 as stated: two strokes where the first ends
exactly where the second begins produce a single pen-up bridge row whose
`f4` is `0`, not within `1e-6` of `1/3` (the bridging chord is degenerate,
so the `chordLen > 0` guard leaves both ratios at zero). -/
theorem c6_penup_ratio_counterexample :
    (preprocessStrokes mfQ (fun _ => []) (fun _ _ => none)
        [[((0 : ℚ), (0 : ℚ), (0 : ℚ)), (7, 0, 0)], [(7, 0, 0), (7, 7, 0)]] 7).length = 1
    ∧ ((preprocessStrokes mfQ (fun _ => []) (fun _ _ => none)
        [[((0 : ℚ), (0 : ℚ), (0 : ℚ)), (7, 0, 0)], [(7, 0, 0), (7, 7, 0)]] 7).getD 0
          []).getD 0 0 = 0
    ∧ ((preprocessStrokes mfQ (fun _ => []) (fun _ _ => none)
        [[((0 : ℚ), (0 : ℚ), (0 : ℚ)), (7, 0, 0)], [(7, 0, 0), (7, 7, 0)]] 7).getD 0
          []).getD 4 0 = 0
    ∧ ¬ |(0 : ℚ) - 1 / 3| ≤ 1 / 1000000 := by
  have hrows : preprocessStrokes mfQ (fun _ => []) (fun _ _ => none)
      [[((0 : ℚ), (0 : ℚ), (0 : ℚ)), (7, 0, 0)], [(7, 0, 0), (7, 7, 0)]] 7
      = [[0, 0, 0, 0, 0, 0, 0, 0, 0, 0]] := by
    norm_num [preprocessStrokes, preprocessGo, normalizeStrokes, minXOf, maxXOf,
      minYOf, maxYOf, strokeRows, penUpRow, bezierFeatures, mfQ]
  rw [hrows]
  refine ⟨rfl, rfl, rfl, ?_⟩
  rw [show (0 : ℚ) - 1 / 3 = -(1 / 3) by ring, abs_neg, abs_of_nonneg (by norm_num)]
  norm_num

theorem c6_penup_ratio_amended_witness :
    (∀ x : ℝ, 0 ≤ x → Real.sqrt x * Real.sqrt x = x)
    ∧ (∀ x : ℝ, 0 ≤ x → 0 ≤ Real.sqrt x)
    ∧ ∀ r ∈ preprocessStrokes (⟨id, id, Real.sqrt, fun _ _ => 0⟩ : MathFns ℝ)
        (fun _ => []) (fun _ _ => none)
        [[((0 : ℝ), (0 : ℝ), (0 : ℝ)), (7, 0, 0)], [(7, 0, 0), (7, 7, 0)]] 7,
      r.getD 0 0 = 0 →
      (r.getD 4 0 = 1 / 3 ∧ r.getD 6 0 = 1 / 3)
      ∨ (r.getD 1 0 = 0 ∧ r.getD 2 0 = 0 ∧ r.getD 4 0 = 0 ∧ r.getD 6 0 = 0) :=
  ⟨fun _ hx => Real.mul_self_sqrt hx, fun x _ => Real.sqrt_nonneg x,
   c6_penup_ratio_amended (⟨id, id, Real.sqrt, fun _ _ => 0⟩ : MathFns ℝ)
     (fun _ => []) (fun _ _ => none)
     [[((0 : ℝ), (0 : ℝ), (0 : ℝ)), (7, 0, 0)], [(7, 0, 0), (7, 7, 0)]] 7
     (fun _ hx => Real.mul_self_sqrt hx) (fun x _ => Real.sqrt_nonneg x)⟩

/-! ### Preprocessing: skipped strokes (claim C7) -/

/-- Counterexample to C7 as stated: a 1-point first stroke is skipped, yet
the second stroke's pen-up bridge is built from it — the bridge chord runs
from the skipped stroke's point `(7,0)` to `(0,0)` (so `f1 = -1` after
normalization with scale 7), and removing the skipped stroke removes the
bridge row entirely. -/
theorem c7_skipped_prev_counterexample :
    (preprocessStrokes mfQ (fun _ => []) (fun _ _ => none)
        [[((7 : ℚ), (0 : ℚ), (0 : ℚ))], [(0, 0, 0), (0, 7, 0)]] 7).length = 1
    ∧ ((preprocessStrokes mfQ (fun _ => []) (fun _ _ => none)
        [[((7 : ℚ), (0 : ℚ), (0 : ℚ))], [(0, 0, 0), (0, 7, 0)]] 7).getD 0 []).getD 0 0
        = 0
    ∧ ((preprocessStrokes mfQ (fun _ => []) (fun _ _ => none)
        [[((7 : ℚ), (0 : ℚ), (0 : ℚ))], [(0, 0, 0), (0, 7, 0)]] 7).getD 0 []).getD 1 0
        = -1
    ∧ preprocessStrokes mfQ (fun _ => []) (fun _ _ => none)
        [[((0 : ℚ), (0 : ℚ), (0 : ℚ)), (0, 7, 0)]] 7 = [] := by
  have hrows : preprocessStrokes mfQ (fun _ => []) (fun _ _ => none)
      [[((7 : ℚ), (0 : ℚ), (0 : ℚ))], [(0, 0, 0), (0, 7, 0)]] 7
      = [[0, -1, 0, 0, 1 / 9, 0, 1 / 9, 7, 7 / 3, -(7 / 3)]] := by
    norm_num [preprocessStrokes, preprocessGo, normalizeStrokes, minXOf, maxXOf,
      minYOf, maxYOf, strokeRows, penUpRow, bezierFeatures, mfQ]
  have hempty : preprocessStrokes mfQ (fun _ => []) (fun _ _ => none)
      [[((0 : ℚ), (0 : ℚ), (0 : ℚ)), (0, 7, 0)]] 7 = [] := by
    norm_num [preprocessStrokes, preprocessGo, normalizeStrokes, minXOf, maxXOf,
      minYOf, maxYOf, strokeRows, penUpRow, bezierFeatures, mfQ]
  rw [hrows]
  exact ⟨rfl, rfl, rfl, hempty⟩

/-- C7 (amended): the feature stream decomposes stroke by stroke; a stroke
with fewer than 2 points contributes no rows of its own, but when a later
stroke is processed its pen-up bridge is built from the immediate array
predecessor `normalized[idx-1]` — including when that predecessor was
itself skipped for having fewer than 2 points. -/
theorem c7_skipped_strokes_amended (mf : MathFns K)
    (fitter : List (K × K) → List (Fit.BezierCurve K))
    (timeF : List (K × K × K) → Fit.BezierCurve K → Option (K × K × K))
    (strokes : List (List (K × K × K))) (scale : K) :
    preprocessStrokes mf fitter timeF strokes scale
      = ((List.range (normalizeStrokes strokes scale).length).map
          (fun j => strokeRows mf fitter timeF scale
            (normalizeStrokes strokes scale) j)).flatten
    ∧ (∀ idx, (((normalizeStrokes strokes scale).getD idx []).map
          (fun p => (p.1, p.2.1))).length < 2 →
        strokeRows mf fitter timeF scale (normalizeStrokes strokes scale) idx = [])
    ∧ (∀ idx, 0 < idx →
        ¬ (((normalizeStrokes strokes scale).getD idx []).map
            (fun p => (p.1, p.2.1))).length < 2 →
        strokeRows mf fitter timeF scale (normalizeStrokes strokes scale) idx
          = penUpRow mf scale ((normalizeStrokes strokes scale).getD (idx - 1) [])
              ((normalizeStrokes strokes scale).getD idx [])
            :: (fitter (((normalizeStrokes strokes scale).getD idx []).map
                (fun p => (p.1, p.2.1)))).map
              (fun seg => bezierFeatures mf seg true scale
                (timeF ((normalizeStrokes strokes scale).getD idx []) seg))) := by
  refine ⟨preprocessStrokes_eq_join mf fitter timeF strokes scale, ?_, ?_⟩
  · intro idx h
    simp only [strokeRows]
    rw [if_pos h]
  · intro idx hidx h
    simp only [strokeRows]
    rw [if_neg h, if_pos hidx]
    simp

/-! ### Curve fitting invariants (claim C10) -/

theorem getD_take {α : Type} (l : List α) (m i : ℕ) (d : α) (h : i < m) :
    (l.take m).getD i d = l.getD i d := by
  simp [List.getD_eq_getElem?_getD, List.getElem?_take, h]

theorem getD_drop {α : Type} (l : List α) (m i : ℕ) (d : α) :
    (l.drop m).getD i d = l.getD (m + i) d := by
  simp [List.getD_eq_getElem?_getD, List.getElem?_drop]

theorem computeMaxError_lt (points : List (K × K)) (bez : Fit.BezierCurve K)
    (params : List K) (h : 1 ≤ points.length) :
    (Fit.computeMaxError points bez params).2 < points.length := by
  unfold Fit.computeMaxError
  have hgen : ∀ (l : List ℕ) (acc : K × ℕ), acc.2 < points.length →
      (∀ i ∈ l, i < points.length) →
      (l.foldl (fun acc i =>
        let diff := Fit.sub (Fit.q bez (params.getD i 0))
          (points.getD i ((0 : K), (0 : K)))
        let dist := diff.1 * diff.1 + diff.2 * diff.2
        if acc.1 < dist then (dist, i) else acc) acc).2 < points.length := by
    intro l
    induction l with
    | nil => intro acc hacc _; exact hacc
    | cons x xs ih =>
      intro acc hacc hmem
      simp only [List.foldl_cons]
      apply ih
      · by_cases hx : acc.1 < (Fit.sub (Fit.q bez (params.getD x 0))
            (points.getD x ((0 : K), (0 : K)))).1
            * (Fit.sub (Fit.q bez (params.getD x 0)) (points.getD x ((0 : K), (0 : K)))).1
          + (Fit.sub (Fit.q bez (params.getD x 0)) (points.getD x ((0 : K), (0 : K)))).2
            * (Fit.sub (Fit.q bez (params.getD x 0)) (points.getD x ((0 : K), (0 : K)))).2
        · rw [if_pos hx]
          exact hmem x (by simp)
        · rw [if_neg hx]
          exact hacc
      · intro i hi
        exact hmem i (by simp [hi])
  apply hgen
  · show points.length / 2 < points.length
    omega
  · intro i hi
    exact List.mem_range.mp hi

theorem generateBezier_p0 (sqrt : K → K) (points : List (K × K)) (params : List K)
    (lt rt : K × K) :
    (Fit.generateBezier sqrt points params lt rt).p0 = points.getD 0 ((0 : K), (0 : K)) := by
  simp only [Fit.generateBezier]
  rw [apply_ite Fit.BezierCurve.p0]
  simp

theorem generateBezier_p3 (sqrt : K → K) (points : List (K × K)) (params : List K)
    (lt rt : K × K) :
    (Fit.generateBezier sqrt points params lt rt).p3
      = points.getD (points.length - 1) ((0 : K), (0 : K)) := by
  simp only [Fit.generateBezier]
  rw [apply_ite Fit.BezierCurve.p3]
  simp

theorem iterate20_inl (sqrt : K → K) (points : List (K × K)) (lt rt : K × K)
    (error : K) : ∀ (k : ℕ) (bez : Fit.BezierCurve K) (u : List K) (me : K) (sp : ℕ)
    (b : Fit.BezierCurve K),
    Fit.iterate20 sqrt points lt rt error k bez u me sp = .inl b →
    b.p0 = points.getD 0 ((0 : K), (0 : K))
    ∧ b.p3 = points.getD (points.length - 1) ((0 : K), (0 : K)) := by
  intro k
  induction k with
  | zero =>
    intro bez u me sp b h
    exact Sum.noConfusion h
  | succ m ih =>
    intro bez u me sp b h
    simp only [Fit.iterate20] at h
    split at h
    · injection h with h
      subst h
      exact ⟨generateBezier_p0 _ _ _ _ _, generateBezier_p3 _ _ _ _ _⟩
    · exact ih _ _ _ _ _ h

theorem iterate20_inr_lt (sqrt : K → K) (points : List (K × K)) (lt rt : K × K)
    (error : K) (hn : 1 ≤ points.length) :
    ∀ (k : ℕ) (bez : Fit.BezierCurve K) (u : List K) (me : K) (sp : ℕ)
    (st4 : Fit.BezierCurve K × List K × K × ℕ),
    sp < points.length →
    Fit.iterate20 sqrt points lt rt error k bez u me sp = .inr st4 →
    st4.2.2.2 < points.length := by
  intro k
  induction k with
  | zero =>
    intro bez u me sp st4 hsp h
    injection h with h
    subst h
    exact hsp
  | succ m ih =>
    intro bez u me sp st4 hsp h
    simp only [Fit.iterate20] at h
    split at h
    · exact Sum.noConfusion h
    · exact ih _ _ _ _ _ (computeMaxError_lt _ _ _ hn) h

theorem fitCubicF_inv (sqrt : K → K) : ∀ (fuel : ℕ) (points : List (K × K))
    (lt rt : K × K) (error : K) (segs : List (Fit.BezierCurve K)),
    1 ≤ points.length →
    Fit.fitCubicF sqrt fuel points lt rt error = some segs →
    segs ≠ []
    ∧ (segs.getD 0 Fit.zbez).p0 = points.getD 0 ((0 : K), (0 : K))
    ∧ (segs.getD (segs.length - 1) Fit.zbez).p3
        = points.getD (points.length - 1) ((0 : K), (0 : K))
    ∧ (∀ i, i + 1 < segs.length →
        (segs.getD i Fit.zbez).p3 = (segs.getD (i + 1) Fit.zbez).p0) := by
  intro fuel
  induction fuel with
  | zero =>
    intro points lt rt error segs _ h
    exact Option.noConfusion h
  | succ m ih =>
    intro points lt rt error segs hn h
    simp only [Fit.fitCubicF] at h
    split at h
    · rename_i hlen2
      injection h with h
      subst h
      refine ⟨by simp, rfl, ?_, ?_⟩
      · rw [hlen2]
        rfl
      · intro i hi
        simp only [List.length_singleton] at hi
        omega
    · split at h
      · injection h with h
        subst h
        refine ⟨by simp, generateBezier_p0 _ _ _ _ _, generateBezier_p3 _ _ _ _ _, ?_⟩
        intro i hi
        simp only [List.length_singleton] at hi
        omega
      · split at h
        · rename_i b heq
          injection h with h
          subst h
          have hb : b.p0 = points.getD 0 ((0 : K), (0 : K))
              ∧ b.p3 = points.getD (points.length - 1) ((0 : K), (0 : K)) := by
            split at heq
            · exact iterate20_inl sqrt points lt rt error 20 _ _ _ _ _ heq
            · exact Sum.noConfusion heq
          refine ⟨by simp, hb.1, hb.2, ?_⟩
          intro i hi
          simp only [List.length_singleton] at hi
          omega
        · rename_i bz' u' me' sp heq
          have hsp : sp < points.length := by
            split at heq
            · exact iterate20_inr_lt sqrt points lt rt error hn 20 _ _ _ _ _
                (computeMaxError_lt _ _ _ hn) heq
            · injection heq with heq
              have hr2 := congrArg (fun t => t.2.2.2) heq
              simp only at hr2
              rw [← hr2]
              exact computeMaxError_lt _ _ _ hn
          split at h
          · rename_i l r hl hr
            injection h with h
            subst h
            have htl : (points.take (sp + 1)).length = sp + 1 := by
              rw [List.length_take]
              omega
            have hdl : (points.drop sp).length = points.length - sp :=
              List.length_drop _ _
            obtain ⟨hlne, hl0, hl3, hlc⟩ := ih (points.take (sp + 1)) lt _ error l
              (by rw [htl]; omega) hl
            obtain ⟨hrne, hr0, hr3, hrc⟩ := ih (points.drop sp) _ rt error r
              (by rw [hdl]; omega) hr
            have hll : 1 ≤ l.length := List.length_pos.mpr hlne
            have hrl : 1 ≤ r.length := List.length_pos.mpr hrne
            refine ⟨?_, ?_, ?_, ?_⟩
            · intro hco
              exact hlne (List.append_eq_nil.mp hco).1
            · rw [List.getD_append _ _ _ _ (by omega), hl0,
                getD_take _ _ _ _ (by omega)]
            · rw [List.length_append,
                List.getD_append_right _ _ _ _ (by omega),
                show l.length + r.length - 1 - l.length = r.length - 1 from by omega,
                hr3, hdl, getD_drop]
              congr 1
              omega
            · intro i hi
              rw [List.length_append] at hi
              by_cases hcase : i + 1 < l.length
              · rw [List.getD_append _ _ _ _ (by omega), List.getD_append _ _ _ _ hcase]
                exact hlc i hcase
              · by_cases hseam : i + 1 = l.length
                · rw [List.getD_append _ _ _ _ (by omega),
                    List.getD_append_right _ _ _ _ (by omega),
                    show i + 1 - l.length = 0 from by omega,
                    show i = l.length - 1 from by omega,
                    hl3, hr0, htl, show sp + 1 - 1 = sp from by omega,
                    getD_take _ _ _ _ (by omega), getD_drop]
                  rfl
                · rw [List.getD_append_right _ _ _ _ (by omega),
                    List.getD_append_right _ _ _ _ (by omega),
                    show i + 1 - l.length = (i - l.length) + 1 from by omega]
                  exact hrc (i - l.length) (by omega)
          · exact Option.noConfusion h

/-- C10: whatever segment list the `fitCurve` recursion returns for an
input of at least 2 points (for any fuel bound on the non-structural
recursion) is non-empty, interpolates the endpoints (the first segment's
`p0` is the first input point and the last segment's `p3` is the last
input point), and is continuous: each segment's `p3` equals the next
segment's `p0`, the shared split point of the two recursive halves. -/
theorem c10_fitCurve_invariants (sqrt : K → K) (fuel : ℕ) (points : List (K × K))
    (err : K) (segs : List (Fit.BezierCurve K)) (h2 : 2 ≤ points.length)
    (hfit : Fit.fitCurveF sqrt fuel points err = some segs) :
    segs ≠ []
    ∧ (segs.getD 0 Fit.zbez).p0 = points.getD 0 ((0 : K), (0 : K))
    ∧ (segs.getD (segs.length - 1) Fit.zbez).p3
        = points.getD (points.length - 1) ((0 : K), (0 : K))
    ∧ (∀ i, i + 1 < segs.length →
        (segs.getD i Fit.zbez).p3 = (segs.getD (i + 1) Fit.zbez).p0) := by
  simp only [Fit.fitCurveF] at hfit
  rw [if_neg (by omega)] at hfit
  exact fitCubicF_inv sqrt fuel points _ _ err segs (by omega) hfit

theorem c10_fitCurve_invariants_witness :
    2 ≤ ([((0 : ℚ), (0 : ℚ)), (3, 0)] : List (ℚ × ℚ)).length
    ∧ Fit.fitCurveF (fun _ => (0 : ℚ)) 1 [((0 : ℚ), (0 : ℚ)), (3, 0)] 1
        = some [⟨(0, 0), (0, 0), (3, 0), (3, 0)⟩]
    ∧ (([⟨(0, 0), (0, 0), (3, 0), (3, 0)⟩] : List (Fit.BezierCurve ℚ)) ≠ []
      ∧ ((([⟨(0, 0), (0, 0), (3, 0), (3, 0)⟩] : List (Fit.BezierCurve ℚ)).getD 0
          Fit.zbez).p0
          = ([((0 : ℚ), (0 : ℚ)), (3, 0)] : List (ℚ × ℚ)).getD 0 ((0 : ℚ), (0 : ℚ)))
      ∧ ((([⟨(0, 0), (0, 0), (3, 0), (3, 0)⟩] : List (Fit.BezierCurve ℚ)).getD
          (([⟨(0, 0), (0, 0), (3, 0), (3, 0)⟩] : List (Fit.BezierCurve ℚ)).length - 1)
          Fit.zbez).p3
          = ([((0 : ℚ), (0 : ℚ)), (3, 0)] : List (ℚ × ℚ)).getD
            (([((0 : ℚ), (0 : ℚ)), (3, 0)] : List (ℚ × ℚ)).length - 1) ((0 : ℚ), (0 : ℚ)))
      ∧ ∀ i, i + 1 < ([⟨(0, 0), (0, 0), (3, 0), (3, 0)⟩]
            : List (Fit.BezierCurve ℚ)).length →
          ((([⟨(0, 0), (0, 0), (3, 0), (3, 0)⟩] : List (Fit.BezierCurve ℚ)).getD i
            Fit.zbez).p3
            = (([⟨(0, 0), (0, 0), (3, 0), (3, 0)⟩] : List (Fit.BezierCurve ℚ)).getD
              (i + 1) Fit.zbez).p0)) := by
  have h2 : 2 ≤ ([((0 : ℚ), (0 : ℚ)), (3, 0)] : List (ℚ × ℚ)).length := by simp
  have hfit : Fit.fitCurveF (fun _ => (0 : ℚ)) 1 [((0 : ℚ), (0 : ℚ)), (3, 0)] 1
      = some [⟨(0, 0), (0, 0), (3, 0), (3, 0)⟩] := by
    simp [Fit.fitCurveF, Fit.fitCubicF, Fit.normalize, Fit.norm, Fit.sub, Fit.add,
      Fit.scale]
  exact ⟨h2, hfit,
    c10_fitCurve_invariants (fun _ => (0 : ℚ)) 1 [((0 : ℚ), (0 : ℚ)), (3, 0)] 1
      [⟨(0, 0), (0, 0), (3, 0), (3, 0)⟩] h2 hfit⟩

end HanScribe
